import Mathlib

/-!
# jsonschema: protocol-buffer descriptors to a flat JSON Schema

A shallow embedding of `main.go` and the properties of its four functions
`mapProtoTypeToJSONType`, `processMessageForSchema`, `collectSchemaFromProto`
and `main`.

Modelling conventions.

* A Go `map[string]interface{}` is an association list `JMap`; `m[k]` is `mapIndex`
  (first binding of `k`) and `m[k] = v` is `mapAssign` (the binding of `k` is replaced
  where it stands, a new key is added at the end).  Go maps carry no order, so the
  position of a binding has no meaning beyond making results printable.
* The run of `main` is modelled on tree values (`JVal`): the two maps `main` creates are
  fresh, non-nil and referenced from one place each, so a map is held where it is bound.
* For schemas a caller may pass in general (a typed nil map under `properties`, one map
  object bound under several keys, the schema bound inside itself) the section `Shared`
  models map objects at addresses of a heap; on schemas that hold their values alone the
  two models agree (`processMessageForSchema_unshared`).
* A failed type assertion (a Go panic) is the result `none`.
* The directory tree, the descriptor decoder, the JSON encoder and the file system are
  parameters of `main`: the entries `filepath.Walk` would present in walk order, the
  function `load`, and the functions `MarshalIndent` and `WriteFile`.
-/

namespace Jsonschema

/-! ## Values held in `interface{}` -/

/-- Values stored in a `map[string]interface{}`: the nil interface, strings, slices and
nested maps. -/
inductive JVal where
  | null
  | str (s : String)
  | arr (xs : List JVal)
  | obj (kvs : List (String × JVal))

/-- The Go type `map[string]interface{}`. -/
abbrev JMap := List (String × JVal)

mutual
/-- Decision procedure for equality of values. -/
def JVal.decEq : (a b : JVal) → Decidable (a = b)
  | .null, .null => isTrue rfl
  | .str a, .str b =>
    if h : a = b then isTrue (by rw [h]) else isFalse (by intro e; cases e; exact h rfl)
  | .arr a, .arr b =>
    match JVal.decEqList a b with
    | isTrue h => isTrue (by rw [h])
    | isFalse h => isFalse (by intro e; cases e; exact h rfl)
  | .obj a, .obj b =>
    match JVal.decEqKvs a b with
    | isTrue h => isTrue (by rw [h])
    | isFalse h => isFalse (by intro e; cases e; exact h rfl)
  | .null, .str _ => isFalse (by intro e; cases e)
  | .null, .arr _ => isFalse (by intro e; cases e)
  | .null, .obj _ => isFalse (by intro e; cases e)
  | .str _, .null => isFalse (by intro e; cases e)
  | .str _, .arr _ => isFalse (by intro e; cases e)
  | .str _, .obj _ => isFalse (by intro e; cases e)
  | .arr _, .null => isFalse (by intro e; cases e)
  | .arr _, .str _ => isFalse (by intro e; cases e)
  | .arr _, .obj _ => isFalse (by intro e; cases e)
  | .obj _, .null => isFalse (by intro e; cases e)
  | .obj _, .str _ => isFalse (by intro e; cases e)
  | .obj _, .arr _ => isFalse (by intro e; cases e)
/-- Decision procedure for equality of slices of values. -/
def JVal.decEqList : (a b : List JVal) → Decidable (a = b)
  | [], [] => isTrue rfl
  | [], _ :: _ => isFalse (by intro e; cases e)
  | _ :: _, [] => isFalse (by intro e; cases e)
  | x :: xs, y :: ys =>
    match JVal.decEq x y, JVal.decEqList xs ys with
    | isTrue h1, isTrue h2 => isTrue (by rw [h1, h2])
    | isFalse h, _ => isFalse (by intro e; cases e; exact h rfl)
    | _, isFalse h => isFalse (by intro e; cases e; exact h rfl)
/-- Decision procedure for equality of binding lists. -/
def JVal.decEqKvs : (a b : List (String × JVal)) → Decidable (a = b)
  | [], [] => isTrue rfl
  | [], _ :: _ => isFalse (by intro e; cases e)
  | _ :: _, [] => isFalse (by intro e; cases e)
  | (k, x) :: xs, (l, y) :: ys =>
    if hk : k = l then
      match JVal.decEq x y, JVal.decEqKvs xs ys with
      | isTrue h1, isTrue h2 => isTrue (by rw [hk, h1, h2])
      | isFalse h, _ => isFalse (by intro e; cases e; exact h rfl)
      | _, isFalse h => isFalse (by intro e; cases e; exact h rfl)
    else isFalse (by intro e; cases e; exact hk rfl)
end

instance : DecidableEq JVal := JVal.decEq

/-- The Go expression `m[k]` on a non-nil map: the value bound to `k`, `none` when `k` is
not a key. -/
def mapIndex {V : Type} : List (String × V) → String → Option V
  | [], _ => none
  | (k1, v) :: rest, k => if k1 = k then some v else mapIndex rest k

/-- The Go statement `m[k] = v` on a non-nil map: replaces the binding of `k`, or adds
one. -/
def mapAssign {V : Type} : List (String × V) → String → V → List (String × V)
  | [], k, v => [(k, v)]
  | (k1, v1) :: rest, k, v =>
    if k1 = k then (k, v) :: rest else (k1, v1) :: mapAssign rest k v

/-- The keys of a map. -/
def mapKeys {V : Type} (m : List (String × V)) : List String := m.map Prod.fst

/-! ## Descriptors (read-only views of the protobuf reflection library) -/

/-- The type `protoreflect.Kind` (an `int8` in Go; any integer here). -/
abbrev Kind := Int

/-- Constant `protoreflect.DoubleKind`. -/
def DoubleKind : Kind := 1
/-- Constant `protoreflect.FloatKind`. -/
def FloatKind : Kind := 2
/-- Constant `protoreflect.Int64Kind`. -/
def Int64Kind : Kind := 3
/-- Constant `protoreflect.Uint64Kind`. -/
def Uint64Kind : Kind := 4
/-- Constant `protoreflect.Int32Kind`. -/
def Int32Kind : Kind := 5
/-- Constant `protoreflect.Fixed64Kind`. -/
def Fixed64Kind : Kind := 6
/-- Constant `protoreflect.Fixed32Kind`. -/
def Fixed32Kind : Kind := 7
/-- Constant `protoreflect.BoolKind`. -/
def BoolKind : Kind := 8
/-- Constant `protoreflect.StringKind`. -/
def StringKind : Kind := 9
/-- Constant `protoreflect.GroupKind`. -/
def GroupKind : Kind := 10
/-- Constant `protoreflect.MessageKind`. -/
def MessageKind : Kind := 11
/-- Constant `protoreflect.BytesKind`. -/
def BytesKind : Kind := 12
/-- Constant `protoreflect.Uint32Kind`. -/
def Uint32Kind : Kind := 13
/-- Constant `protoreflect.EnumKind`. -/
def EnumKind : Kind := 14
/-- Constant `protoreflect.Sfixed32Kind`. -/
def Sfixed32Kind : Kind := 15
/-- Constant `protoreflect.Sfixed64Kind`. -/
def Sfixed64Kind : Kind := 16
/-- Constant `protoreflect.Sint32Kind`. -/
def Sint32Kind : Kind := 17
/-- Constant `protoreflect.Sint64Kind`. -/
def Sint64Kind : Kind := 18

/-- The kinds that have a `case` of their own in `mapProtoTypeToJSONType`. -/
def tableKinds : List Kind :=
  [StringKind, Int32Kind, Int64Kind, Sint32Kind, Sint64Kind, FloatKind, DoubleKind,
   BoolKind, BytesKind, MessageKind, GroupKind, EnumKind]

/-- What `processMessageForSchema` reads of a `protoreflect.FieldDescriptor`:
`Name()`, `Kind()`, `IsList()`, `IsMap()` and `MapValue().Kind()`; the last is read only
when `IsMap()` holds. The two flags are independent answers of the descriptor. -/
structure FieldDescriptor where
  name : String
  kind : Kind
  isList : Bool
  isMap : Bool
  mapValueKind : Kind
  deriving DecidableEq

/-- A `protoreflect.MessageDescriptor`: the fields `Fields()` ranges over, in order. -/
structure MessageDescriptor where
  fields : List FieldDescriptor
  deriving DecidableEq

/-- One file of a descriptor set: its top-level message types (`GetMessageTypes()`). -/
structure FileDescriptor where
  messageTypes : List MessageDescriptor
  deriving DecidableEq

/-- A decoded descriptor set: its files (`GetFile()`). -/
structure FileDescriptorSet where
  file : List FileDescriptor
  deriving DecidableEq

/-- The field names of a message, in declaration order. -/
def fieldNames (md : MessageDescriptor) : List String := md.fields.map FieldDescriptor.name

/-- `Fields().Range(f)`: calls `f` on every field in order and stops as soon as `f`
answers `false`. -/
def Range {σ : Type} (f : FieldDescriptor → σ → σ × Bool) : List FieldDescriptor → σ → σ
  | [], s => s
  | fd :: rest, s =>
    match f fd s with
    | (s1, true) => Range f rest s1
    | (s1, false) => s1

/-! ## The program -/

/-- Function `mapProtoTypeToJSONType` (main.go, lines 92-111): the `switch` on the kind. -/
def mapProtoTypeToJSONType (kind : Kind) : String :=
  if kind = StringKind then "string"
  else if kind = Int32Kind ∨ kind = Int64Kind ∨ kind = Sint32Kind ∨ kind = Sint64Kind then
    "integer"
  else if kind = FloatKind ∨ kind = DoubleKind then "number"
  else if kind = BoolKind then "boolean"
  else if kind = BytesKind then "string"
  else if kind = MessageKind ∨ kind = GroupKind then "object"
  else if kind = EnumKind then "string"
  else "object"

/-- The map `fieldSchema` built for one field (main.go, lines 71-85): the `type` entry,
then the two independent `if` statements on `IsList()` and `IsMap()`. -/
def fieldSchema (fd : FieldDescriptor) : JMap :=
  let s0 : JMap := [("type", JVal.str (mapProtoTypeToJSONType fd.kind))]
  let s1 : JMap :=
    if fd.isList then
      mapAssign (mapAssign s0 "type" (JVal.str "array")) "items"
        (JVal.obj [("type", JVal.str (mapProtoTypeToJSONType fd.kind))])
    else s0
  let s2 : JMap :=
    if fd.isMap then
      mapAssign (mapAssign s1 "type" (JVal.str "object")) "additionalProperties"
        (JVal.obj [("type", JVal.str (mapProtoTypeToJSONType fd.mapValueKind))])
    else s1
  s2

/-- The callback handed to `Range` (main.go, lines 70-89): stores the field's entry under
its name and answers `true`. -/
def storeField (fd : FieldDescriptor) (properties : JMap) : JMap × Bool :=
  (mapAssign properties fd.name (JVal.obj (fieldSchema fd)), true)

/-- Function `processMessageForSchema` (main.go, lines 68-90) on a schema that holds its
values alone: the map under `"properties"`, when there is one, is a non-nil map object
bound nowhere else. The type assertion on `schema["properties"]` comes first and panics
(`none`) unless the value is a map; the fields are then stored into that map, which
`schema` keeps under `"properties"`. Nil and shared maps are the subject of
`Shared.processMessageForSchema`. -/
def processMessageForSchema (md : MessageDescriptor) (schema : JMap) : Option JMap :=
  match mapIndex schema "properties" with
  | some (JVal.obj properties) =>
    some (mapAssign schema "properties" (JVal.obj (Range storeField md.fields properties)))
  | _ => none

/-- The inner loop of `collectSchemaFromProto` (main.go, lines 60-62). -/
def processMessages : List MessageDescriptor → JMap → Option JMap
  | [], schema => some schema
  | md :: rest, schema =>
    match processMessageForSchema md schema with
    | some schema1 => processMessages rest schema1
    | none => none

/-- The outer loop of `collectSchemaFromProto` (main.go, lines 59-63). -/
def processFiles : List FileDescriptor → JMap → Option JMap
  | [], schema => some schema
  | fl :: rest, schema =>
    match processMessages fl.messageTypes schema with
    | some schema1 => processFiles rest schema1
    | none => none

/-- Errors are carried as their message. -/
abbrev Error := String

/-- Function `collectSchemaFromProto` (main.go, lines 53-66). The result is `none` on a
panic, and otherwise the returned error (if any) with the schema as the call leaves it. -/
def collectSchemaFromProto (load : String → Except Error FileDescriptorSet)
    (protoFilePath : String) (schema : JMap) : Option (Option Error × JMap) :=
  match load protoFilePath with
  | Except.error err => some (some err, schema)
  | Except.ok fileDescriptorSet =>
    match processFiles fileDescriptorSet.file schema with
    | some schema1 => some (none, schema1)
    | none => none

/-! ## Map objects on a heap -/

/-- The address of a map object. -/
abbrev Addr := Nat

/-- A value bound in a map object: a typed nil map, a reference to the map object at an
address (which other bindings may reference too), or a value held by this binding alone
(a string, the nil interface, a slice, a map object referenced from here only). -/
inductive HVal where
  | nilMap
  | ref (a : Addr)
  | inline (v : JVal)
  deriving DecidableEq

/-- The bindings of a map object. -/
abbrev HMap := List (String × HVal)

/-- The map objects: the bindings of the object at each address. -/
abbrev Heap := Addr → HMap

/-- The heap after the object at `a` has taken the bindings `m`. -/
def heapStore (heap : Heap) (a : Addr) (m : HMap) : Heap :=
  fun b => if b = a then m else heap b

/-- A tree value map seen as the bindings of a map object that holds its values alone. -/
def unshared (m : JMap) : HMap := m.map (fun kv => (kv.1, HVal.inline kv.2))

namespace Shared

/-- The callback handed to `Range` (main.go, lines 70-89) on the bindings of a map object:
the entry of the field is a map created by this call, stored under the name of the
field. -/
def storeField (fd : FieldDescriptor) (properties : HMap) : HMap × Bool :=
  (mapAssign properties fd.name (HVal.inline (JVal.obj (fieldSchema fd))), true)

/-- Function `processMessageForSchema` (main.go, lines 68-90) on map objects. `schema` is
the address of the schema map. The type assertion of line 69 succeeds on every value of
map type, the typed nil map included, and panics (`none`) on anything else. The stores of
line 87 then go to the map object under `"properties"`: to the object at its address when
it is a reference, into the binding when the schema holds the map alone; on the nil map
the first store panics, so the call succeeds only for a message without fields. -/
def processMessageForSchema (md : MessageDescriptor) (schema : Addr) (heap : Heap) :
    Option Heap :=
  match mapIndex (heap schema) "properties" with
  | some (HVal.ref a) => some (heapStore heap a (Range storeField md.fields (heap a)))
  | some HVal.nilMap =>
    match md.fields with
    | [] => some heap
    | _ :: _ => none
  | some (HVal.inline (JVal.obj properties)) =>
    some (heapStore heap schema (mapAssign (heap schema) "properties"
      (HVal.inline (JVal.obj (Range Jsonschema.storeField md.fields properties)))))
  | _ => none

/-- The heap `main` starts from (main.go, lines 19-22): the schema map at address 0 and
the empty map made for `"properties"` at address 1. -/
def initialHeap : Heap :=
  fun a =>
    if a = 0 then [("type", HVal.inline (JVal.str "object")), ("properties", HVal.ref 1)]
    else []

/-- The heaps `processMessageForSchema` can produce from the initial one, called on the
schema map of `main`. -/
inductive Reachable : Heap → Prop where
  | init : Reachable initialHeap
  | step (md : MessageDescriptor) (h t : Heap) :
      Reachable h → processMessageForSchema md 0 h = some t → Reachable t

/-- A schema at address 0 whose `properties` is a typed nil map. -/
def nilPropertiesHeap : Heap :=
  fun a =>
    if a = 0 then [("type", HVal.inline (JVal.str "object")), ("properties", HVal.nilMap)]
    else []

/-- A schema at address 0 whose keys `properties` and `backup` are bound to one and the
same map object, the empty map at address 1. -/
def sharedPropertiesHeap : Heap :=
  fun a =>
    if a = 0 then [("type", HVal.inline (JVal.str "object")), ("properties", HVal.ref 1),
      ("backup", HVal.ref 1)]
    else []

/-- A schema at address 0 whose `properties` is the schema map itself. -/
def selfPropertiesHeap : Heap :=
  fun a =>
    if a = 0 then [("type", HVal.inline (JVal.str "object")), ("properties", HVal.ref 0)]
    else []

end Shared

/-! ## The directory walk and `main` -/

/-- The scan of `filepath.Ext` over the bytes of the path, last byte first: it ends at a
path separator with no extension, and at the first dot met with the extension from that
dot on. `acc` holds the bytes already passed. -/
def extScan : List Char → List Char → List Char
  | [], _ => []
  | c :: rest, acc =>
    if c = '/' then []
    else if c = '.' then '.' :: acc
    else extScan rest (c :: acc)

/-- Library function `filepath.Ext` (with `/` as the path separator): the suffix of the
last path element from its final dot on, empty when there is none. -/
def Ext (path : String) : String := String.mk (extScan path.data.reverse [])

/-- One call of the walk function by `filepath.Walk`: the path, whether `info.IsDir()`
holds, and the error the walk reports for the entry (`none` for `nil`). -/
structure WalkEntry where
  path : String
  isDir : Bool
  err : Option Error
  deriving DecidableEq

/-- The observable steps of a run: the walk function is entered for a path, the descriptor
set of a path is loaded, `ioutil.WriteFile` is called with the encoded schema. -/
inductive Event where
  | visit (path : String)
  | load (path : String)
  | writeFile (data : String)
  deriving DecidableEq

/-- The variable `schema` of `main` together with the steps taken so far. -/
structure State where
  schema : JMap
  trace : List Event
  deriving DecidableEq

/-- The test of main.go line 28: not a directory and extension `.proto`. -/
def qualifies (e : WalkEntry) : Bool := !e.isDir && Ext e.path == ".proto"

/-- The walk function of `main` (main.go, lines 24-34). The result is `none` on a panic,
and otherwise the error it returns (if any) with the state it leaves. -/
def walkFn (load : String → Except Error FileDescriptorSet) (e : WalkEntry) (st : State) :
    Option (Option Error × State) :=
  let entered : List Event := st.trace ++ [Event.visit e.path]
  match e.err with
  | some err => some (some err, State.mk st.schema entered)
  | none =>
    if qualifies e then
      match collectSchemaFromProto load e.path st.schema with
      | some (r, schema1) => some (r, State.mk schema1 (entered ++ [Event.load e.path]))
      | none => none
    else some (none, State.mk st.schema entered)

/-- Library function `filepath.Walk` on the entries it would present in walk order: the
walk function is called on each in turn and the first error it returns ends the walk and
is the result (the errors are ordinary ones, none is the sentinel `filepath.SkipDir`). -/
def Walk (fn : WalkEntry → State → Option (Option Error × State)) :
    List WalkEntry → State → Option (Option Error × State)
  | [], st => some (none, st)
  | e :: rest, st =>
    match fn e st with
    | some (none, st1) => Walk fn rest st1
    | some (some err, st1) => some (some err, st1)
    | none => none

/-- How the process ends: normally, or through `log.Fatalf` with a message. -/
inductive Exit where
  | success
  | fatal (msg : String)
  deriving DecidableEq

/-- The schema `main` starts from (main.go, lines 19-22). -/
def initialSchema : JMap := [("type", JVal.str "object"), ("properties", JVal.obj [])]

/-- Function `main` (main.go, lines 15-51). The result is `none` on a panic, and otherwise
how the process ends with the final state. -/
def main (load : String → Except Error FileDescriptorSet)
    (MarshalIndent : JMap → Except Error String) (WriteFile : String → Option Error)
    (entries : List WalkEntry) : Option (Exit × State) :=
  match Walk (walkFn load) entries (State.mk initialSchema []) with
  | none => none
  | some (some err, st) => some (Exit.fatal ("Failed to walk through directory: " ++ err), st)
  | some (none, st) =>
    match MarshalIndent st.schema with
    | Except.error err => some (Exit.fatal ("Failed to marshal schema to JSON: " ++ err), st)
    | Except.ok jsonSchema =>
      let st1 : State := State.mk st.schema (st.trace ++ [Event.writeFile jsonSchema])
      match WriteFile jsonSchema with
      | some err => some (Exit.fatal ("Failed to write JSON schema file: " ++ err), st1)
      | none => some (Exit.success, st1)

/-- The schemas `processMessageForSchema` can produce starting from the initial one. -/
inductive Reachable : JMap → Prop where
  | init : Reachable initialSchema
  | step (md : MessageDescriptor) (s t : JMap) :
      Reachable s → processMessageForSchema md s = some t → Reachable t

/-! ## Reading a trace -/

/-- The paths the walk function was entered for, in order. -/
def visitedPaths : List Event → List String
  | [] => []
  | Event.visit p :: rest => p :: visitedPaths rest
  | _ :: rest => visitedPaths rest

/-- The steps of a walk over entries none of which makes the walk function return an
error: each is visited, and loaded when it qualifies. -/
def traceOf : List WalkEntry → List Event
  | [] => []
  | e :: rest =>
    (Event.visit e.path :: (if qualifies e then [Event.load e.path] else [])) ++ traceOf rest

/-- An entry the walk function passes without an error: the walk reports none for it, and
if it qualifies its descriptor set loads. -/
def Passes (load : String → Except Error FileDescriptorSet) (e : WalkEntry) : Prop :=
  e.err = none ∧ (qualifies e = true → ∃ fds, load e.path = Except.ok fds)

/-- The shape every schema of a run has: `{type: "object", properties: q}`. -/
def Shape (schema : JMap) : Prop :=
  ∃ q : JMap, schema = [("type", JVal.str "object"), ("properties", JVal.obj q)]

/-! ## Sample inputs -/

/-- A message with the plain fields `name: string`, `age: int32`, `active: bool`. -/
def personMessage : MessageDescriptor :=
  ⟨[⟨"name", StringKind, false, false, 0⟩, ⟨"age", Int32Kind, false, false, 0⟩,
    ⟨"active", BoolKind, false, false, 0⟩]⟩

/-- A decoder under which `bad.proto` does not decode and every other file holds the
single message `personMessage`. -/
def sampleLoad : String → Except Error FileDescriptorSet :=
  fun p => if p = "bad.proto" then Except.error "cannot parse invalid wire-format data"
    else Except.ok ⟨[⟨[personMessage]⟩]⟩

/-- An encoder that always succeeds; the encoded text is left abstract. -/
def sampleMarshal : JMap → Except Error String := fun _ => Except.ok "<json>"

/-- A file system on which the write succeeds. -/
def sampleWrite : String → Option Error := fun _ => none

/-! ## Lemmas on maps -/

theorem mapIndex_mapAssign_self {V : Type} (m : List (String × V)) (k : String) (v : V) :
    mapIndex (mapAssign m k v) k = some v := by
  induction m with
  | nil => simp [mapAssign, mapIndex]
  | cons b rest ih =>
    obtain ⟨k1, v1⟩ := b
    by_cases h : k1 = k
    · simp [mapAssign, mapIndex, h]
    · simp [mapAssign, mapIndex, h, ih]

theorem mapIndex_mapAssign_ne {V : Type} (m : List (String × V)) (k x : String) (v : V) (hx : x ≠ k) :
    mapIndex (mapAssign m k v) x = mapIndex m x := by
  induction m with
  | nil => simp [mapAssign, mapIndex, Ne.symm hx]
  | cons b rest ih =>
    obtain ⟨k1, v1⟩ := b
    by_cases h : k1 = k
    · subst h
      simp [mapAssign, mapIndex, Ne.symm hx]
    · by_cases h2 : k1 = x
      · subst h2
        simp [mapAssign, mapIndex, h]
      · simp [mapAssign, mapIndex, h, h2, ih]

theorem mem_mapKeys_mapAssign {V : Type} (m : List (String × V)) (k x : String) (v : V) :
    x ∈ mapKeys (mapAssign m k v) ↔ x ∈ mapKeys m ∨ x = k := by
  induction m with
  | nil => simp [mapAssign, mapKeys]
  | cons b rest ih =>
    obtain ⟨k1, v1⟩ := b
    by_cases h : k1 = k
    · subst h
      simp only [mapAssign, mapKeys, if_true, List.map_cons, List.mem_cons]
      tauto
    · simp only [mapKeys] at ih
      simp only [mapAssign, mapKeys, h, if_false, List.map_cons, List.mem_cons, ih]
      tauto

theorem mapKeys_mapAssign_of_mem {V : Type} (m : List (String × V)) (k : String) (v : V) (hk : k ∈ mapKeys m) :
    mapKeys (mapAssign m k v) = mapKeys m := by
  induction m with
  | nil => simp [mapKeys] at hk
  | cons b rest ih =>
    obtain ⟨k1, v1⟩ := b
    by_cases h : k1 = k
    · simp [mapAssign, mapKeys, h]
    · have hk2 : k ∈ mapKeys rest := by
        simp only [mapKeys, List.map_cons, List.mem_cons] at hk
        rcases hk with hk | hk
        · exact absurd hk.symm h
        · exact hk
      have := ih hk2
      simp only [mapKeys] at this
      simp [mapAssign, mapKeys, h, this]

theorem mapKeys_mapAssign_of_not_mem {V : Type} (m : List (String × V)) (k : String) (v : V) (hk : k ∉ mapKeys m) :
    mapAssign m k v = m ++ [(k, v)] := by
  induction m with
  | nil => simp [mapAssign]
  | cons b rest ih =>
    obtain ⟨k1, v1⟩ := b
    simp only [mapKeys, List.map_cons, List.mem_cons, not_or] at hk
    have h : ¬ k1 = k := fun e => hk.1 e.symm
    have := ih hk.2
    simp [mapAssign, h, this]

theorem mapAssign_mapAssign_same {V : Type} (m : List (String × V)) (k : String) (v w : V) :
    mapAssign (mapAssign m k w) k v = mapAssign m k v := by
  induction m with
  | nil => simp [mapAssign]
  | cons b rest ih =>
    obtain ⟨k1, v1⟩ := b
    by_cases h : k1 = k
    · simp [mapAssign, h]
    · simp [mapAssign, h, ih]

theorem mapAssign_comm {V : Type} (m : List (String × V)) (k x : String) (v w : V) (hne : k ≠ x)
    (hx : x ∈ mapKeys m) :
    mapAssign (mapAssign m x w) k v = mapAssign (mapAssign m k v) x w := by
  induction m with
  | nil => simp [mapKeys] at hx
  | cons b rest ih =>
    obtain ⟨k1, v1⟩ := b
    by_cases h1 : k1 = x
    · subst h1
      have h2 : ¬ k1 = k := fun e => hne e.symm
      simp [mapAssign, h2, hne]
    · have hx2 : x ∈ mapKeys rest := by
        simp only [mapKeys, List.map_cons, List.mem_cons] at hx
        rcases hx with hx | hx
        · exact absurd hx.symm h1
        · exact hx
      by_cases h2 : k1 = k
      · subst h2
        simp [mapAssign, h1]
      · simp [mapAssign, h1, h2, ih hx2]

theorem mapIndex_isSome_iff {V : Type} (m : List (String × V)) (k : String) :
    (mapIndex m k).isSome = true ↔ k ∈ mapKeys m := by
  induction m with
  | nil => simp [mapIndex, mapKeys]
  | cons b rest ih =>
    obtain ⟨k1, v1⟩ := b
    by_cases h : k1 = k
    · simp [mapIndex, mapKeys, h]
    · simp only [mapKeys] at ih
      simp [mapIndex, mapKeys, h, ih, Ne.symm h]


/-! ## Lemmas on storing the fields of a message -/

theorem Range_storeField_cons (fd : FieldDescriptor) (rest : List FieldDescriptor) (p : JMap) :
    Range storeField (fd :: rest) p
      = Range storeField rest (mapAssign p fd.name (JVal.obj (fieldSchema fd))) := rfl

theorem Range_storeField_append (a b : List FieldDescriptor) (p : JMap) :
    Range storeField (a ++ b) p = Range storeField b (Range storeField a p) := by
  induction a generalizing p with
  | nil => rfl
  | cons fd rest ih => simp only [List.cons_append, Range_storeField_cons, ih]

theorem mapIndex_Range_of_not_mem (fs : List FieldDescriptor) (p : JMap) (x : String)
    (hx : x ∉ fs.map FieldDescriptor.name) :
    mapIndex (Range storeField fs p) x = mapIndex p x := by
  induction fs generalizing p with
  | nil => rfl
  | cons fd rest ih =>
    simp only [List.map_cons, List.mem_cons, not_or] at hx
    rw [Range_storeField_cons, ih _ hx.2, mapIndex_mapAssign_ne _ _ _ _ hx.1]

theorem mapIndex_Range_last (pre post : List FieldDescriptor) (fd : FieldDescriptor) (p : JMap)
    (hpost : fd.name ∉ post.map FieldDescriptor.name) :
    mapIndex (Range storeField (pre ++ fd :: post) p) fd.name
      = some (JVal.obj (fieldSchema fd)) := by
  rw [Range_storeField_append, Range_storeField_cons, mapIndex_Range_of_not_mem _ _ _ hpost,
    mapIndex_mapAssign_self]

theorem mapIndex_Range_of_mem (fs : List FieldDescriptor) (fd : FieldDescriptor) (p : JMap)
    (hmem : fd ∈ fs) (huniq : (fs.map FieldDescriptor.name).Nodup) :
    mapIndex (Range storeField fs p) fd.name = some (JVal.obj (fieldSchema fd)) := by
  obtain ⟨pre, post, rfl⟩ := List.append_of_mem hmem
  apply mapIndex_Range_last
  rw [List.map_append, List.map_cons] at huniq
  have h := (List.nodup_append.mp huniq).2.1
  exact (List.nodup_cons.mp h).1

theorem mem_mapKeys_Range (fs : List FieldDescriptor) (p : JMap) (x : String) :
    x ∈ mapKeys (Range storeField fs p) ↔ x ∈ mapKeys p ∨ x ∈ fs.map FieldDescriptor.name := by
  induction fs generalizing p with
  | nil => simp [Range]
  | cons fd rest ih =>
    rw [Range_storeField_cons, ih, mem_mapKeys_mapAssign]
    simp only [List.map_cons, List.mem_cons]
    tauto

theorem mapAssign_Range_mapAssign (gs : List FieldDescriptor) (q : JMap) (k : String)
    (v w : JVal) (hsub : ∀ fd ∈ gs, fd.name ∈ mapKeys q) :
    mapAssign (Range storeField gs (mapAssign q k w)) k v
      = mapAssign (Range storeField gs q) k v := by
  induction gs generalizing q w with
  | nil => exact mapAssign_mapAssign_same q k v w
  | cons g rest ih =>
    have hg : g.name ∈ mapKeys q := hsub g (List.mem_cons_self _ _)
    have hrest : ∀ fd ∈ rest,
        fd.name ∈ mapKeys (mapAssign q g.name (JVal.obj (fieldSchema g))) := by
      intro fd hfd
      rw [mapKeys_mapAssign_of_mem q _ _ hg]
      exact hsub fd (List.mem_cons_of_mem _ hfd)
    rw [Range_storeField_cons, Range_storeField_cons]
    by_cases hk : g.name = k
    · rw [hk, mapAssign_mapAssign_same]
    · rw [← mapAssign_comm q k g.name w (JVal.obj (fieldSchema g)) (Ne.symm hk) hg]
      exact ih _ w hrest

theorem Range_storeField_idem (fs : List FieldDescriptor) (p : JMap) :
    Range storeField fs (Range storeField fs p) = Range storeField fs p := by
  induction fs using List.reverseRecOn generalizing p with
  | nil => rfl
  | append_singleton gs fd ih =>
    have hsub : ∀ g ∈ gs, g.name ∈ mapKeys (Range storeField gs p) := by
      intro g hg
      exact (mem_mapKeys_Range gs p g.name).mpr (Or.inr (List.mem_map_of_mem _ hg))
    have hstep : ∀ q : JMap, Range storeField (gs ++ [fd]) q
        = mapAssign (Range storeField gs q) fd.name (JVal.obj (fieldSchema fd)) := by
      intro q
      rw [Range_storeField_append]
      rfl
    rw [hstep p, hstep, mapAssign_Range_mapAssign gs _ _ _ _ hsub, ih]

theorem Range_storeField_fresh (fs : List FieldDescriptor) (p : JMap)
    (huniq : (fs.map FieldDescriptor.name).Nodup)
    (hfresh : ∀ fd ∈ fs, fd.name ∉ mapKeys p) :
    Range storeField fs p
      = p ++ fs.map (fun fd => (fd.name, JVal.obj (fieldSchema fd))) := by
  induction fs generalizing p with
  | nil => simp [Range]
  | cons fd rest ih =>
    rw [List.map_cons, List.nodup_cons] at huniq
    rw [Range_storeField_cons,
      mapKeys_mapAssign_of_not_mem p _ _ (hfresh fd (List.mem_cons_self _ _)), ih _ huniq.2]
    · simp
    · intro g hg hmem
      simp only [mapKeys, List.map_append, List.map_cons, List.map_nil, List.mem_append,
        List.mem_singleton] at hmem
      rcases hmem with h | h
      · exact hfresh g (List.mem_cons_of_mem _ hg) h
      · exact huniq.1 (h ▸ List.mem_map_of_mem _ hg)


/-! ## Lemmas on the entry of one field and on `processMessageForSchema` -/

theorem fieldSchema_plain (fd : FieldDescriptor) (hl : fd.isList = false)
    (hm : fd.isMap = false) :
    fieldSchema fd = [("type", JVal.str (mapProtoTypeToJSONType fd.kind))] := by
  simp [fieldSchema, hl, hm]

theorem fieldSchema_list (fd : FieldDescriptor) (hl : fd.isList = true)
    (hm : fd.isMap = false) :
    fieldSchema fd = [("type", JVal.str "array"),
      ("items", JVal.obj [("type", JVal.str (mapProtoTypeToJSONType fd.kind))])] := by
  simp [fieldSchema, hl, hm, mapAssign]

theorem fieldSchema_map (fd : FieldDescriptor) (hl : fd.isList = false)
    (hm : fd.isMap = true) :
    fieldSchema fd = [("type", JVal.str "object"),
      ("additionalProperties",
        JVal.obj [("type", JVal.str (mapProtoTypeToJSONType fd.mapValueKind))])] := by
  simp [fieldSchema, hl, hm, mapAssign]

theorem fieldSchema_list_map (fd : FieldDescriptor) (hl : fd.isList = true)
    (hm : fd.isMap = true) :
    fieldSchema fd = [("type", JVal.str "object"),
      ("items", JVal.obj [("type", JVal.str (mapProtoTypeToJSONType fd.kind))]),
      ("additionalProperties",
        JVal.obj [("type", JVal.str (mapProtoTypeToJSONType fd.mapValueKind))])] := by
  simp [fieldSchema, hl, hm, mapAssign]

theorem processMessageForSchema_of_properties (md : MessageDescriptor) (schema p : JMap)
    (hp : mapIndex schema "properties" = some (JVal.obj p)) :
    processMessageForSchema md schema
      = some (mapAssign schema "properties" (JVal.obj (Range storeField md.fields p))) := by
  simp [processMessageForSchema, hp]

theorem processMessageForSchema_some_iff (md : MessageDescriptor) (schema : JMap) :
    (∃ t, processMessageForSchema md schema = some t)
      ↔ ∃ p, mapIndex schema "properties" = some (JVal.obj p) := by
  constructor
  · rintro ⟨t, ht⟩
    unfold processMessageForSchema at ht
    split at ht
    · next p hp => exact ⟨p, hp⟩
    · cases ht
  · rintro ⟨p, hp⟩
    exact ⟨_, processMessageForSchema_of_properties md schema p hp⟩

/-- What a successful call of `processMessageForSchema` leaves: the stored entries of the
uniquely named fields, the untouched entries, the key set, and the frame. -/
theorem processMessageForSchema_spec (md : MessageDescriptor) (schema p : JMap)
    (hp : mapIndex schema "properties" = some (JVal.obj p)) :
    ∃ schema1 p1, processMessageForSchema md schema = some schema1 ∧
      mapIndex schema1 "properties" = some (JVal.obj p1) ∧
      p1 = Range storeField md.fields p ∧
      mapKeys schema1 = mapKeys schema ∧
      (∀ k, k ≠ "properties" → mapIndex schema1 k = mapIndex schema k) := by
  refine ⟨_, _, processMessageForSchema_of_properties md schema p hp,
    mapIndex_mapAssign_self _ _ _, rfl, ?_, ?_⟩
  · apply mapKeys_mapAssign_of_mem
    rw [← mapIndex_isSome_iff, hp]
    rfl
  · intro k hk
    exact mapIndex_mapAssign_ne _ _ _ _ hk

/-- The store performed for one field of a message: the callback binds the name of the
field to its entry in whatever map it is given, and when the field names of the message
are unique that binding is the one found once the whole message is processed. -/
theorem stored_entry (md : MessageDescriptor) (schema properties : JMap)
    (fd : FieldDescriptor)
    (hprops : mapIndex schema "properties" = some (JVal.obj properties))
    (hmem : fd ∈ md.fields) :
    ∃ schema1 properties1,
      processMessageForSchema md schema = some schema1 ∧
      mapIndex schema1 "properties" = some (JVal.obj properties1) ∧
      (∀ q, mapIndex (storeField fd q).1 fd.name = some (JVal.obj (fieldSchema fd))) ∧
      ((fieldNames md).Nodup →
        mapIndex properties1 fd.name = some (JVal.obj (fieldSchema fd))) := by
  obtain ⟨schema1, p1, h1, h2, h3, -, -⟩ := processMessageForSchema_spec md schema properties hprops
  refine ⟨schema1, p1, h1, h2, ?_, ?_⟩
  · intro q
    exact mapIndex_mapAssign_self q fd.name _
  · intro huniq
    rw [h3]
    exact mapIndex_Range_of_mem md.fields fd properties hmem huniq


/-! ## The type mapper -/

/-- C1: `mapProtoTypeToJSONType` is a total function that returns the table value for each
of the eighteen field kinds (the six unsigned and fixed-width kinds fall through to
`"object"`), and `"object"` for every kind value that has no case of its own. -/
theorem mapProtoTypeToJSONType_table :
    (mapProtoTypeToJSONType StringKind = "string" ∧
      mapProtoTypeToJSONType Int32Kind = "integer" ∧
      mapProtoTypeToJSONType Int64Kind = "integer" ∧
      mapProtoTypeToJSONType Sint32Kind = "integer" ∧
      mapProtoTypeToJSONType Sint64Kind = "integer" ∧
      mapProtoTypeToJSONType FloatKind = "number" ∧
      mapProtoTypeToJSONType DoubleKind = "number" ∧
      mapProtoTypeToJSONType BoolKind = "boolean" ∧
      mapProtoTypeToJSONType BytesKind = "string" ∧
      mapProtoTypeToJSONType MessageKind = "object" ∧
      mapProtoTypeToJSONType GroupKind = "object" ∧
      mapProtoTypeToJSONType EnumKind = "string" ∧
      mapProtoTypeToJSONType Uint32Kind = "object" ∧
      mapProtoTypeToJSONType Uint64Kind = "object" ∧
      mapProtoTypeToJSONType Fixed32Kind = "object" ∧
      mapProtoTypeToJSONType Fixed64Kind = "object" ∧
      mapProtoTypeToJSONType Sfixed32Kind = "object" ∧
      mapProtoTypeToJSONType Sfixed64Kind = "object") ∧
    ∀ kind : Kind, kind ∉ tableKinds → mapProtoTypeToJSONType kind = "object" := by
  refine ⟨by decide, ?_⟩
  intro kind hk
  simp only [tableKinds, List.mem_cons, List.mem_singleton, List.not_mem_nil, or_false,
    not_or] at hk
  obtain ⟨h1, h2, h3, h4, h5, h6, h7, h8, h9, h10, h11, h12⟩ := hk
  simp [mapProtoTypeToJSONType, h1, h2, h3, h4, h5, h6, h7, h8, h9, h10, h11, h12]

theorem mapProtoTypeToJSONType_table_witness :
    (99 : Kind) ∉ tableKinds ∧ mapProtoTypeToJSONType 99 = "object" :=
  ⟨by decide, mapProtoTypeToJSONType_table.2 99 (by decide)⟩

/-! ## The entry stored for one field -/

/-- C2: for every message, every schema whose `properties` is a map and every field of the
message that is a list and not a map, the entry built for the field is exactly
`{type: "array", items: {type: mapProtoTypeToJSONType(kind)}}`, with the two keys `type`
and `items` and no other; the callback stores it under the name of the field, and with
field names unique within the message it is the entry found under that name after the
call. -/
theorem repeated_field_entry (md : MessageDescriptor) (schema properties : JMap)
    (fd : FieldDescriptor)
    (hprops : mapIndex schema "properties" = some (JVal.obj properties))
    (hmem : fd ∈ md.fields) (hlist : fd.isList = true) (hmap : fd.isMap = false) :
    ∃ schema1 properties1 entry,
      entry = [("type", JVal.str "array"),
        ("items", JVal.obj [("type", JVal.str (mapProtoTypeToJSONType fd.kind))])] ∧
      fieldSchema fd = entry ∧
      mapKeys entry = ["type", "items"] ∧
      processMessageForSchema md schema = some schema1 ∧
      mapIndex schema1 "properties" = some (JVal.obj properties1) ∧
      (∀ q, mapIndex (storeField fd q).1 fd.name = some (JVal.obj entry)) ∧
      ((fieldNames md).Nodup → mapIndex properties1 fd.name = some (JVal.obj entry)) := by
  obtain ⟨schema1, p1, h1, h2, h3, h4⟩ := stored_entry md schema properties fd hprops hmem
  have he := fieldSchema_list fd hlist hmap
  rw [he] at h3 h4
  exact ⟨schema1, p1, _, rfl, he, rfl, h1, h2, h3, h4⟩

theorem repeated_field_entry_witness :
    ∃ schema1 properties1,
      processMessageForSchema ⟨[⟨"tags", StringKind, true, false, 0⟩]⟩ initialSchema
        = some schema1 ∧
      mapIndex schema1 "properties" = some (JVal.obj properties1) ∧
      mapIndex properties1 "tags" = some (JVal.obj [("type", JVal.str "array"),
        ("items", JVal.obj [("type", JVal.str "string")])]) := by
  obtain ⟨schema1, properties1, entry, h1, -, -, h4, h5, -, h7⟩ :=
    repeated_field_entry ⟨[⟨"tags", StringKind, true, false, 0⟩]⟩ initialSchema []
      ⟨"tags", StringKind, true, false, 0⟩ (by decide) (by decide) rfl rfl
  exact ⟨schema1, properties1, h4, h5, h1 ▸ h7 (by decide)⟩

/-- C3: for every message, every schema whose `properties` is a map and every field of the
message that is a map and not a list, the entry built for the field is exactly
`{type: "object", additionalProperties: {type: mapProtoTypeToJSONType(mapValueKind)}}`,
two keys and no other, the inner type taken from the kind of the map value whatever the
kind of the field itself; the callback stores it under the name of the field, and with
field names unique within the message it is the entry found under that name after the
call. -/
theorem map_field_entry (md : MessageDescriptor) (schema properties : JMap)
    (fd : FieldDescriptor)
    (hprops : mapIndex schema "properties" = some (JVal.obj properties))
    (hmem : fd ∈ md.fields) (hlist : fd.isList = false) (hmap : fd.isMap = true) :
    ∃ schema1 properties1 entry,
      entry = [("type", JVal.str "object"),
        ("additionalProperties",
          JVal.obj [("type", JVal.str (mapProtoTypeToJSONType fd.mapValueKind))])] ∧
      fieldSchema fd = entry ∧
      mapKeys entry = ["type", "additionalProperties"] ∧
      processMessageForSchema md schema = some schema1 ∧
      mapIndex schema1 "properties" = some (JVal.obj properties1) ∧
      (∀ q, mapIndex (storeField fd q).1 fd.name = some (JVal.obj entry)) ∧
      ((fieldNames md).Nodup → mapIndex properties1 fd.name = some (JVal.obj entry)) := by
  obtain ⟨schema1, p1, h1, h2, h3, h4⟩ := stored_entry md schema properties fd hprops hmem
  have he := fieldSchema_map fd hlist hmap
  rw [he] at h3 h4
  exact ⟨schema1, p1, _, rfl, he, rfl, h1, h2, h3, h4⟩

theorem map_field_entry_witness :
    ∃ schema1 properties1,
      processMessageForSchema ⟨[⟨"counts", MessageKind, false, true, Int32Kind⟩]⟩ initialSchema
        = some schema1 ∧
      mapIndex schema1 "properties" = some (JVal.obj properties1) ∧
      mapIndex properties1 "counts" = some (JVal.obj [("type", JVal.str "object"),
        ("additionalProperties", JVal.obj [("type", JVal.str "integer")])]) := by
  obtain ⟨schema1, properties1, entry, h1, -, -, h4, h5, -, h7⟩ :=
    map_field_entry ⟨[⟨"counts", MessageKind, false, true, Int32Kind⟩]⟩ initialSchema []
      ⟨"counts", MessageKind, false, true, Int32Kind⟩ (by decide) (by decide) rfl rfl
  exact ⟨schema1, properties1, h4, h5, h1 ▸ h7 (by decide)⟩

/-- C4: for every message, every schema whose `properties` is a map and every field of the
message that is neither a list nor a map, the entry built for the field is exactly the
single-key entry `{type: mapProtoTypeToJSONType(kind)}`: it has no `items`,
`additionalProperties` or `properties` key, and for a field of message or group kind it
is exactly `{type: "object"}`. The callback stores it under the name of the field, and
with field names unique within the message it is the entry found under that name after
the call. -/
theorem plain_field_entry (md : MessageDescriptor) (schema properties : JMap)
    (fd : FieldDescriptor)
    (hprops : mapIndex schema "properties" = some (JVal.obj properties))
    (hmem : fd ∈ md.fields) (hlist : fd.isList = false) (hmap : fd.isMap = false) :
    ∃ schema1 properties1 entry,
      entry = [("type", JVal.str (mapProtoTypeToJSONType fd.kind))] ∧
      fieldSchema fd = entry ∧
      mapKeys entry = ["type"] ∧
      mapIndex entry "items" = none ∧
      mapIndex entry "additionalProperties" = none ∧
      mapIndex entry "properties" = none ∧
      (fd.kind = MessageKind ∨ fd.kind = GroupKind → entry = [("type", JVal.str "object")]) ∧
      processMessageForSchema md schema = some schema1 ∧
      mapIndex schema1 "properties" = some (JVal.obj properties1) ∧
      (∀ q, mapIndex (storeField fd q).1 fd.name = some (JVal.obj entry)) ∧
      ((fieldNames md).Nodup → mapIndex properties1 fd.name = some (JVal.obj entry)) := by
  obtain ⟨schema1, p1, h1, h2, h3, h4⟩ := stored_entry md schema properties fd hprops hmem
  have he := fieldSchema_plain fd hlist hmap
  rw [he] at h3 h4
  refine ⟨schema1, p1, _, rfl, he, rfl, rfl, rfl, rfl, ?_, h1, h2, h3, h4⟩
  rintro (hk | hk) <;> rw [hk] <;> rfl

theorem plain_field_entry_witness :
    (∃ schema1 properties1,
      processMessageForSchema ⟨[⟨"enabled", BoolKind, false, false, 0⟩]⟩ initialSchema
        = some schema1 ∧
      mapIndex schema1 "properties" = some (JVal.obj properties1) ∧
      mapIndex properties1 "enabled" = some (JVal.obj [("type", JVal.str "boolean")])) ∧
    (∃ schema1 properties1,
      processMessageForSchema ⟨[⟨"inner", MessageKind, false, false, 0⟩]⟩ initialSchema
        = some schema1 ∧
      mapIndex schema1 "properties" = some (JVal.obj properties1) ∧
      mapIndex properties1 "inner" = some (JVal.obj [("type", JVal.str "object")])) := by
  constructor
  · obtain ⟨schema1, properties1, entry, h1, -, -, -, -, -, -, h4, h5, -, h7⟩ :=
      plain_field_entry ⟨[⟨"enabled", BoolKind, false, false, 0⟩]⟩ initialSchema []
        ⟨"enabled", BoolKind, false, false, 0⟩ (by decide) (by decide) rfl rfl
    exact ⟨schema1, properties1, h4, h5, h1 ▸ h7 (by decide)⟩
  · obtain ⟨schema1, properties1, entry, -, -, -, -, -, -, h3, h4, h5, -, h7⟩ :=
      plain_field_entry ⟨[⟨"inner", MessageKind, false, false, 0⟩]⟩ initialSchema []
        ⟨"inner", MessageKind, false, false, 0⟩ (by decide) (by decide) rfl rfl
    exact ⟨schema1, properties1, h4, h5, h3 (Or.inl rfl) ▸ h7 (by decide)⟩


/-- C5, as the code behaves: for a field flagged both as a list and as a map the entry
built is `{type: "object", items: {type: mapProtoTypeToJSONType(kind)},
additionalProperties: {type: mapProtoTypeToJSONType(mapValueKind)}}`. The map branch
replaces the `"array"` type by `"object"` and adds `additionalProperties`; the `items`
key written by the list branch stays. The callback stores this entry under the name of
the field, and with field names unique within the message it is the entry found under
that name after the call. -/
theorem list_and_map_field_entry (md : MessageDescriptor) (schema properties : JMap)
    (fd : FieldDescriptor)
    (hprops : mapIndex schema "properties" = some (JVal.obj properties))
    (hmem : fd ∈ md.fields) (hlist : fd.isList = true) (hmap : fd.isMap = true) :
    ∃ schema1 properties1 entry,
      entry = [("type", JVal.str "object"),
        ("items", JVal.obj [("type", JVal.str (mapProtoTypeToJSONType fd.kind))]),
        ("additionalProperties",
          JVal.obj [("type", JVal.str (mapProtoTypeToJSONType fd.mapValueKind))])] ∧
      fieldSchema fd = entry ∧
      mapKeys entry = ["type", "items", "additionalProperties"] ∧
      processMessageForSchema md schema = some schema1 ∧
      mapIndex schema1 "properties" = some (JVal.obj properties1) ∧
      (∀ q, mapIndex (storeField fd q).1 fd.name = some (JVal.obj entry)) ∧
      ((fieldNames md).Nodup → mapIndex properties1 fd.name = some (JVal.obj entry)) := by
  obtain ⟨schema1, p1, h1, h2, h3, h4⟩ := stored_entry md schema properties fd hprops hmem
  have he := fieldSchema_list_map fd hlist hmap
  rw [he] at h3 h4
  exact ⟨schema1, p1, _, rfl, he, rfl, h1, h2, h3, h4⟩

theorem list_and_map_field_entry_witness :
    ∃ schema1 properties1,
      processMessageForSchema ⟨[⟨"both", StringKind, true, true, Int32Kind⟩]⟩ initialSchema
        = some schema1 ∧
      mapIndex schema1 "properties" = some (JVal.obj properties1) ∧
      mapIndex properties1 "both" = some (JVal.obj [("type", JVal.str "object"),
        ("items", JVal.obj [("type", JVal.str "string")]),
        ("additionalProperties", JVal.obj [("type", JVal.str "integer")])]) := by
  obtain ⟨schema1, properties1, entry, h1, -, -, h4, h5, -, h7⟩ :=
    list_and_map_field_entry ⟨[⟨"both", StringKind, true, true, Int32Kind⟩]⟩ initialSchema []
      ⟨"both", StringKind, true, true, Int32Kind⟩ (by decide) (by decide) rfl rfl
  exact ⟨schema1, properties1, h4, h5, h1 ▸ h7 (by decide)⟩

/-- C5 as stated fails: for the field `both` (kind string, a list and a map with int32
values) the stored entry is not the map form, because its `items` key is still present. -/
theorem list_and_map_field_entry_not_map_form :
    processMessageForSchema ⟨[⟨"both", StringKind, true, true, Int32Kind⟩]⟩ initialSchema
      = some [("type", JVal.str "object"),
          ("properties", JVal.obj [("both", JVal.obj [("type", JVal.str "object"),
            ("items", JVal.obj [("type", JVal.str "string")]),
            ("additionalProperties", JVal.obj [("type", JVal.str "integer")])])])] ∧
    fieldSchema ⟨"both", StringKind, true, true, Int32Kind⟩
      ≠ [("type", JVal.str "object"),
          ("additionalProperties", JVal.obj [("type", JVal.str "integer")])] ∧
    mapIndex (fieldSchema ⟨"both", StringKind, true, true, Int32Kind⟩) "items"
      = some (JVal.obj [("type", JVal.str "string")]) := by
  decide

/-! ## Several messages in one flat namespace -/

/-- C6: when message `A` and then message `B` are processed and both declare a field of
the same name, the entry left under that name is the entry of the field of `B` (names
unique within `B`): the same entry that processing `B` alone on the initial schema
leaves, with nothing of the entry of `A`. -/
theorem collision_last_write_wins (A B : MessageDescriptor) (schema properties : JMap)
    (fa fb : FieldDescriptor)
    (hprops : mapIndex schema "properties" = some (JVal.obj properties))
    (ha : fa ∈ A.fields) (hb : fb ∈ B.fields) (hname : fa.name = fb.name)
    (huniq : (fieldNames B).Nodup) :
    ∃ schema1 schema2 properties2,
      processMessageForSchema A schema = some schema1 ∧
      processMessageForSchema B schema1 = some schema2 ∧
      processMessages [A, B] schema = some schema2 ∧
      mapIndex schema2 "properties" = some (JVal.obj properties2) ∧
      mapIndex properties2 fa.name = some (JVal.obj (fieldSchema fb)) ∧
      ∃ alone propertiesAlone,
        processMessageForSchema B initialSchema = some alone ∧
        mapIndex alone "properties" = some (JVal.obj propertiesAlone) ∧
        mapIndex propertiesAlone fa.name = mapIndex properties2 fa.name := by
  have _ := ha
  obtain ⟨s1, p1, h1, h2, -, -, -⟩ := processMessageForSchema_spec A schema properties hprops
  obtain ⟨s2, p2, h3, h4, h5, -, -⟩ := processMessageForSchema_spec B s1 p1 h2
  obtain ⟨s3, p3, h6, h7, h8, -, -⟩ :=
    processMessageForSchema_spec B initialSchema [] (by decide)
  have e2 : mapIndex p2 fa.name = some (JVal.obj (fieldSchema fb)) := by
    rw [h5, hname]
    exact mapIndex_Range_of_mem B.fields fb p1 hb huniq
  have e3 : mapIndex p3 fa.name = some (JVal.obj (fieldSchema fb)) := by
    rw [h8, hname]
    exact mapIndex_Range_of_mem B.fields fb [] hb huniq
  refine ⟨s1, s2, p2, h1, h3, ?_, h4, e2, s3, p3, h6, h7, ?_⟩
  · simp [processMessages, h1, h3]
  · rw [e2, e3]

theorem collision_last_write_wins_witness :
    ∃ schema2 properties2,
      processMessages [⟨[⟨"id", StringKind, false, false, 0⟩]⟩,
        ⟨[⟨"id", Int32Kind, true, false, 0⟩]⟩] initialSchema = some schema2 ∧
      mapIndex schema2 "properties" = some (JVal.obj properties2) ∧
      mapIndex properties2 "id" = some (JVal.obj [("type", JVal.str "array"),
        ("items", JVal.obj [("type", JVal.str "integer")])]) := by
  obtain ⟨schema1, schema2, properties2, -, -, h3, h4, h5, -⟩ :=
    collision_last_write_wins ⟨[⟨"id", StringKind, false, false, 0⟩]⟩
      ⟨[⟨"id", Int32Kind, true, false, 0⟩]⟩ initialSchema []
      ⟨"id", StringKind, false, false, 0⟩ ⟨"id", Int32Kind, true, false, 0⟩
      (by decide) (by decide) (by decide) rfl (by decide)
  exact ⟨schema2, properties2, h3, h4, h5⟩

/-- C7: `processMessageForSchema` is idempotent. From any starting schema, running it on
the same message twice gives what running it once gives (a panic included), and from the
initial empty schema the first run succeeds and the second run returns the same schema. -/
theorem processMessageForSchema_idempotent (md : MessageDescriptor) (schema : JMap) :
    (processMessageForSchema md schema).bind (processMessageForSchema md)
      = processMessageForSchema md schema ∧
    (∀ once, processMessageForSchema md schema = some once →
      processMessageForSchema md once = some once) ∧
    ∃ once, processMessageForSchema md initialSchema = some once ∧
      processMessageForSchema md once = some once := by
  have key : ∀ s once, processMessageForSchema md s = some once →
      processMessageForSchema md once = some once := by
    intro s once h
    obtain ⟨p, hp⟩ := (processMessageForSchema_some_iff md s).mp ⟨once, h⟩
    rw [processMessageForSchema_of_properties md s p hp] at h
    cases h
    rw [processMessageForSchema_of_properties md _ _ (mapIndex_mapAssign_self _ _ _),
      Range_storeField_idem, mapAssign_mapAssign_same]
  refine ⟨?_, key schema, ?_⟩
  · cases h : processMessageForSchema md schema with
    | none => rfl
    | some once => exact key schema once h
  · obtain ⟨once, h⟩ :=
      (processMessageForSchema_some_iff md initialSchema).mpr ⟨[], by decide⟩
    exact ⟨once, h, key initialSchema once h⟩

theorem processMessageForSchema_idempotent_witness :
    processMessageForSchema ⟨[⟨"id", StringKind, false, false, 0⟩,
        ⟨"tags", StringKind, true, false, 0⟩]⟩
      [("type", JVal.str "object"), ("properties", JVal.obj [("id", JVal.obj [("type", JVal.str "string")]),
        ("tags", JVal.obj [("type", JVal.str "array"),
          ("items", JVal.obj [("type", JVal.str "string")])])])]
      = some [("type", JVal.str "object"), ("properties", JVal.obj [("id", JVal.obj [("type", JVal.str "string")]),
        ("tags", JVal.obj [("type", JVal.str "array"),
          ("items", JVal.obj [("type", JVal.str "string")])])])] :=
  (processMessageForSchema_idempotent ⟨[⟨"id", StringKind, false, false, 0⟩,
        ⟨"tags", StringKind, true, false, 0⟩]⟩ initialSchema).2.1 _ (by decide)


/-! ## The shape of the schema -/

theorem Shape_initialSchema : Shape initialSchema := ⟨[], rfl⟩

theorem Shape_processMessageForSchema (md : MessageDescriptor) (schema : JMap)
    (h : Shape schema) :
    ∃ t, processMessageForSchema md schema = some t ∧ Shape t := by
  obtain ⟨q, rfl⟩ := h
  refine ⟨_, processMessageForSchema_of_properties md _ q (by simp [mapIndex]), ?_⟩
  exact ⟨Range storeField md.fields q, by simp [mapAssign]⟩

theorem Shape_of_processMessageForSchema (md : MessageDescriptor) (schema t : JMap)
    (h : Shape schema) (ht : processMessageForSchema md schema = some t) : Shape t := by
  obtain ⟨t1, h1, h2⟩ := Shape_processMessageForSchema md schema h
  rw [ht] at h1
  cases h1
  exact h2

theorem Shape_of_Reachable (t : JMap) (h : Reachable t) : Shape t := by
  induction h with
  | init => exact Shape_initialSchema
  | step md s t _ hstep ih => exact Shape_of_processMessageForSchema md s t ih hstep

theorem Shape_processMessages (mds : List MessageDescriptor) (schema : JMap)
    (h : Shape schema) :
    ∃ t, processMessages mds schema = some t ∧ Shape t := by
  induction mds generalizing schema with
  | nil => exact ⟨schema, rfl, h⟩
  | cons md rest ih =>
    obtain ⟨t1, h1, h2⟩ := Shape_processMessageForSchema md schema h
    obtain ⟨t2, h3, h4⟩ := ih t1 h2
    exact ⟨t2, by simp [processMessages, h1, h3], h4⟩

theorem Shape_processFiles (fls : List FileDescriptor) (schema : JMap) (h : Shape schema) :
    ∃ t, processFiles fls schema = some t ∧ Shape t := by
  induction fls generalizing schema with
  | nil => exact ⟨schema, rfl, h⟩
  | cons fl rest ih =>
    obtain ⟨t1, h1, h2⟩ := Shape_processMessages fl.messageTypes schema h
    obtain ⟨t2, h3, h4⟩ := ih t1 h2
    exact ⟨t2, by simp [processFiles, h1, h3], h4⟩

/-! ## Nil and shared maps -/

theorem Range_sharedStore_cons (fd : FieldDescriptor) (rest : List FieldDescriptor)
    (p : HMap) :
    Range Shared.storeField (fd :: rest) p
      = Range Shared.storeField rest
          (mapAssign p fd.name (HVal.inline (JVal.obj (fieldSchema fd)))) := rfl

theorem mapIndex_Range_sharedStore_of_not_mem (fs : List FieldDescriptor) (p : HMap) (x : String)
    (hx : x ∉ fs.map FieldDescriptor.name) :
    mapIndex (Range Shared.storeField fs p) x = mapIndex p x := by
  induction fs generalizing p with
  | nil => rfl
  | cons fd rest ih =>
    simp only [List.map_cons, List.mem_cons, not_or] at hx
    rw [Range_sharedStore_cons, ih _ hx.2, mapIndex_mapAssign_ne _ _ _ _ hx.1]

theorem mem_mapKeys_Range_sharedStore (fs : List FieldDescriptor) (p : HMap) (x : String) :
    x ∈ mapKeys (Range Shared.storeField fs p)
      ↔ x ∈ mapKeys p ∨ x ∈ fs.map FieldDescriptor.name := by
  induction fs generalizing p with
  | nil => simp [Range]
  | cons fd rest ih =>
    rw [Range_sharedStore_cons, ih, mem_mapKeys_mapAssign]
    simp only [List.map_cons, List.mem_cons]
    tauto

theorem mapIndex_unshared (m : JMap) (k : String) :
    mapIndex (unshared m) k = (mapIndex m k).map HVal.inline := by
  induction m with
  | nil => rfl
  | cons b rest ih =>
    obtain ⟨k1, v1⟩ := b
    by_cases h : k1 = k
    · simp [unshared, mapIndex, h]
    · simp only [unshared] at ih
      simp [unshared, mapIndex, h, ih]

theorem mapAssign_unshared (m : JMap) (k : String) (v : JVal) :
    mapAssign (unshared m) k (HVal.inline v) = unshared (mapAssign m k v) := by
  induction m with
  | nil => rfl
  | cons b rest ih =>
    obtain ⟨k1, v1⟩ := b
    by_cases h : k1 = k
    · simp [unshared, mapAssign, h]
    · simp only [unshared] at ih
      simp [unshared, mapAssign, h, ih]

/-- The two models agree on a schema that holds its values alone: the call on the map
object is the call on the tree value, with the result stored back at the address. -/
theorem processMessageForSchema_unshared (md : MessageDescriptor) (schema : Addr)
    (heap : Heap) (top : JMap) (htop : heap schema = unshared top) :
    Shared.processMessageForSchema md schema heap
      = (processMessageForSchema md top).map (fun t => heapStore heap schema (unshared t)) := by
  unfold Shared.processMessageForSchema processMessageForSchema
  rw [htop, mapIndex_unshared]
  cases h : mapIndex top "properties" with
  | none => rfl
  | some v =>
    cases v with
    | null => rfl
    | str s => rfl
    | arr xs => rfl
    | obj p => simp [mapAssign_unshared]

theorem shared_processMessageForSchema_of_ref (md : MessageDescriptor) (schema a : Addr)
    (heap : Heap) (hp : mapIndex (heap schema) "properties" = some (HVal.ref a)) :
    Shared.processMessageForSchema md schema heap
      = some (heapStore heap a (Range Shared.storeField md.fields (heap a))) := by
  simp [Shared.processMessageForSchema, hp]

theorem shared_schema_of_Reachable (h : Heap) (hr : Shared.Reachable h) :
    h 0 = [("type", HVal.inline (JVal.str "object")), ("properties", HVal.ref 1)] := by
  induction hr with
  | init => rfl
  | step md h t _ hstep ih =>
    rw [shared_processMessageForSchema_of_ref md 0 1 h (by rw [ih]; rfl)] at hstep
    cases hstep
    simpa [heapStore] using ih

/-- C10, as the code behaves: frame and shape of `processMessageForSchema`. When the value
under `properties` is a non-nil map object, the call does not panic and changes that one
map object only: every other map object is as it was, the entries of the properties map
whose name is not a field name of the message are as they were, and its keys become the
old keys together with the field names. When that map object is not the schema map
itself, the schema map keeps all its bindings, the `type` entry among them. On a typed
nil map the call succeeds, changing nothing, for a message without fields and panics for
any other message. Every heap reachable from the initial one keeps the schema map
`{type: "object", properties: p}` with `p` the map made by `main`, no call on it panics,
and in the run of `main` on tree values every reachable schema has the shape
`{type: "object", properties: q}`. -/
theorem processMessageForSchema_frame :
    (∀ (md : MessageDescriptor) (schema a : Addr) (heap : Heap),
      mapIndex (heap schema) "properties" = some (HVal.ref a) →
      ∃ heap1,
        Shared.processMessageForSchema md schema heap = some heap1 ∧
        (∀ b, b ≠ a → heap1 b = heap b) ∧
        (∀ k, k ∉ fieldNames md → mapIndex (heap1 a) k = mapIndex (heap a) k) ∧
        (∀ k, k ∈ mapKeys (heap1 a) ↔ k ∈ mapKeys (heap a) ∨ k ∈ fieldNames md) ∧
        (a ≠ schema →
          heap1 schema = heap schema ∧
          mapIndex (heap1 schema) "properties" = some (HVal.ref a) ∧
          mapIndex (heap1 schema) "type" = mapIndex (heap schema) "type" ∧
          ∀ k, mapIndex (heap1 schema) k = mapIndex (heap schema) k)) ∧
    (∀ (md : MessageDescriptor) (schema : Addr) (heap : Heap),
      mapIndex (heap schema) "properties" = some HVal.nilMap →
      (md.fields = [] → Shared.processMessageForSchema md schema heap = some heap) ∧
      (md.fields ≠ [] → Shared.processMessageForSchema md schema heap = none)) ∧
    (∀ h, Shared.Reachable h →
      h 0 = [("type", HVal.inline (JVal.str "object")), ("properties", HVal.ref 1)] ∧
      ∀ md, ∃ h1, Shared.processMessageForSchema md 0 h = some h1 ∧ Shared.Reachable h1) ∧
    (∀ t, Reachable t →
      (∃ q, t = [("type", JVal.str "object"), ("properties", JVal.obj q)]) ∧
      ∀ md, ∃ t1, processMessageForSchema md t = some t1 ∧ Reachable t1) := by
  refine ⟨?_, ?_, ?_, ?_⟩
  · intro md schema a heap hp
    refine ⟨_, shared_processMessageForSchema_of_ref md schema a heap hp, ?_, ?_, ?_, ?_⟩
    · intro b hb
      simp [heapStore, hb]
    · intro k hk
      have hself : heapStore heap a (Range Shared.storeField md.fields (heap a)) a
          = Range Shared.storeField md.fields (heap a) := by
        simp [heapStore]
      rw [hself]
      exact mapIndex_Range_sharedStore_of_not_mem md.fields (heap a) k hk
    · intro k
      have hself : heapStore heap a (Range Shared.storeField md.fields (heap a)) a
          = Range Shared.storeField md.fields (heap a) := by
        simp [heapStore]
      rw [hself]
      exact mem_mapKeys_Range_sharedStore md.fields (heap a) k
    · intro hne
      have hs : heapStore heap a (Range Shared.storeField md.fields (heap a)) schema
          = heap schema := by
        simp [heapStore, Ne.symm hne]
      rw [hs]
      exact ⟨rfl, hp, rfl, fun _ => rfl⟩
  · intro md schema heap hp
    constructor
    · intro hf
      simp [Shared.processMessageForSchema, hp, hf]
    · intro hf
      cases hfs : md.fields with
      | nil => exact absurd hfs hf
      | cons fd rest => simp [Shared.processMessageForSchema, hp, hfs]
  · intro h hr
    have hshape := shared_schema_of_Reachable h hr
    refine ⟨hshape, ?_⟩
    intro md
    have hstep := shared_processMessageForSchema_of_ref md 0 1 h (by rw [hshape]; rfl)
    exact ⟨_, hstep, Shared.Reachable.step md h _ hr hstep⟩
  · intro t ht
    refine ⟨Shape_of_Reachable t ht, ?_⟩
    intro md
    obtain ⟨t1, h1, -⟩ := Shape_processMessageForSchema md t (Shape_of_Reachable t ht)
    exact ⟨t1, h1, Reachable.step md t t1 ht h1⟩

theorem processMessageForSchema_frame_witness :
    ∃ heap1,
      Shared.processMessageForSchema ⟨[⟨"age", Int32Kind, false, false, 0⟩]⟩ 0
        Shared.sharedPropertiesHeap = some heap1 ∧
      heap1 0 = [("type", HVal.inline (JVal.str "object")), ("properties", HVal.ref 1),
        ("backup", HVal.ref 1)] ∧
      mapIndex (heap1 0) "type" = some (HVal.inline (JVal.str "object")) ∧
      heap1 2 = [] ∧
      "age" ∈ mapKeys (heap1 1) := by
  obtain ⟨heap1, h1, h2, -, h4, h5⟩ :=
    processMessageForSchema_frame.1 ⟨[⟨"age", Int32Kind, false, false, 0⟩]⟩ 0 1
      Shared.sharedPropertiesHeap (by decide)
  obtain ⟨h6, -, h7, -⟩ := h5 (by decide)
  refine ⟨heap1, h1, ?_, ?_, ?_, ?_⟩
  · rw [h6]
    rfl
  · rw [h7]
    rfl
  · rw [h2 2 (by decide)]
    rfl
  · exact (h4 "age").mpr (Or.inr (by decide))

/-- C10 as stated fails at three schemas whose `properties` value is a mapping, each with
the one-field message of the plain field named. On a typed nil map the call panics. When
`backup` and `properties` are bound to one map object, the map under the other top-level
key `backup` is empty before the call and holds the entry of `age` after it. When
`properties` is the schema map itself, a field named `type` replaces the top-level `type`
entry. -/
theorem processMessageForSchema_frame_fails :
    (mapIndex (Shared.nilPropertiesHeap 0) "properties" = some HVal.nilMap ∧
      (Shared.processMessageForSchema ⟨[⟨"age", Int32Kind, false, false, 0⟩]⟩ 0
        Shared.nilPropertiesHeap).isNone = true) ∧
    (mapIndex (Shared.sharedPropertiesHeap 0) "properties" = some (HVal.ref 1) ∧
      mapIndex (Shared.sharedPropertiesHeap 0) "backup" = some (HVal.ref 1) ∧
      Shared.sharedPropertiesHeap 1 = [] ∧
      (Shared.processMessageForSchema ⟨[⟨"age", Int32Kind, false, false, 0⟩]⟩ 0
          Shared.sharedPropertiesHeap).map (fun heap1 => (mapIndex (heap1 0) "backup", heap1 1))
        = some (some (HVal.ref 1),
            [("age", HVal.inline (JVal.obj [("type", JVal.str "integer")]))])) ∧
    (mapIndex (Shared.selfPropertiesHeap 0) "properties" = some (HVal.ref 0) ∧
      mapIndex (Shared.selfPropertiesHeap 0) "type" = some (HVal.inline (JVal.str "object")) ∧
      (Shared.processMessageForSchema ⟨[⟨"type", Int32Kind, false, false, 0⟩]⟩ 0
          Shared.selfPropertiesHeap).map (fun heap1 => mapIndex (heap1 0) "type")
        = some (some (HVal.inline (JVal.obj [("type", JVal.str "integer")])))) := by
  decide


/-! ## Lemmas on the walk -/

theorem walkFn_err (load : String → Except Error FileDescriptorSet) (e : WalkEntry) (st : State)
    (err : Error) (h : e.err = some err) :
    walkFn load e st = some (some err, State.mk st.schema (st.trace ++ [Event.visit e.path])) := by
  simp [walkFn, h]

theorem walkFn_skip (load : String → Except Error FileDescriptorSet) (e : WalkEntry) (st : State)
    (h1 : e.err = none) (h2 : qualifies e = false) :
    walkFn load e st = some (none, State.mk st.schema (st.trace ++ [Event.visit e.path])) := by
  simp [walkFn, h1, h2]

theorem walkFn_load_error (load : String → Except Error FileDescriptorSet) (e : WalkEntry)
    (st : State) (err : Error) (h1 : e.err = none) (h2 : qualifies e = true)
    (h3 : load e.path = Except.error err) :
    walkFn load e st = some (some err,
      State.mk st.schema (st.trace ++ [Event.visit e.path, Event.load e.path])) := by
  simp [walkFn, h1, h2, collectSchemaFromProto, h3]

theorem walkFn_load_ok (load : String → Except Error FileDescriptorSet) (e : WalkEntry)
    (st : State) (fds : FileDescriptorSet) (t : JMap) (h1 : e.err = none)
    (h2 : qualifies e = true) (h3 : load e.path = Except.ok fds)
    (h4 : processFiles fds.file st.schema = some t) :
    walkFn load e st = some (none,
      State.mk t (st.trace ++ [Event.visit e.path, Event.load e.path])) := by
  simp [walkFn, h1, h2, collectSchemaFromProto, h3, h4]

theorem visitedPaths_append (a b : List Event) :
    visitedPaths (a ++ b) = visitedPaths a ++ visitedPaths b := by
  induction a with
  | nil => rfl
  | cons ev rest ih => cases ev <;> simp [visitedPaths, ih]

theorem visitedPaths_traceOf (es : List WalkEntry) :
    visitedPaths (traceOf es) = es.map WalkEntry.path := by
  induction es with
  | nil => rfl
  | cons e rest ih =>
    by_cases h : qualifies e = true
    · simp [traceOf, h, visitedPaths, ih]
    · simp [traceOf, h, visitedPaths, ih]

theorem mem_traceOf_load (es : List WalkEntry) (p : String) (h : Event.load p ∈ traceOf es) :
    ∃ e ∈ es, e.path = p ∧ qualifies e = true := by
  induction es with
  | nil => simp [traceOf] at h
  | cons e rest ih =>
    by_cases hq : qualifies e = true
    · simp only [traceOf, hq, if_true, List.cons_append, List.nil_append, List.mem_cons,
        Event.load.injEq] at h
      rcases h with h | h | h
      · cases h
      · exact ⟨e, List.mem_cons_self _ _, h.symm, hq⟩
      · obtain ⟨x, hx, hx2⟩ := ih h
        exact ⟨x, List.mem_cons_of_mem _ hx, hx2⟩
    · simp only [traceOf, hq, if_false, List.cons_append, List.nil_append, List.mem_cons] at h
      rcases h with h | h
      · cases h
      · obtain ⟨x, hx, hx2⟩ := ih h
        exact ⟨x, List.mem_cons_of_mem _ hx, hx2⟩

theorem not_mem_traceOf_writeFile (es : List WalkEntry) (d : String) :
    Event.writeFile d ∉ traceOf es := by
  induction es with
  | nil => simp [traceOf]
  | cons e rest ih =>
    by_cases hq : qualifies e = true
    · simp [traceOf, hq, ih]
    · simp [traceOf, hq, ih]

/-- The walk from a well-shaped schema never panics. Without an error every entry passed
and the trace grew by the steps of all entries; with an error the walk stopped at the
first entry that does not pass, either on the error the walk reported for it or on the
failure to load it. -/
theorem Walk_spec (load : String → Except Error FileDescriptorSet) (entries : List WalkEntry)
    (st : State) (hs : Shape st.schema) :
    ∃ r st1, Walk (walkFn load) entries st = some (r, st1) ∧ Shape st1.schema ∧
      (r = none → (∀ e ∈ entries, Passes load e) ∧ st1.trace = st.trace ++ traceOf entries) ∧
      (∀ err, r = some err → ∃ pre e post, entries = pre ++ e :: post ∧
        (∀ x ∈ pre, Passes load x) ∧
        ((e.err = some err ∧ st1.trace = st.trace ++ traceOf pre ++ [Event.visit e.path]) ∨
         (e.err = none ∧ qualifies e = true ∧ load e.path = Except.error err ∧
          st1.trace = st.trace ++ traceOf pre ++ [Event.visit e.path, Event.load e.path]))) := by
  induction entries generalizing st with
  | nil =>
    refine ⟨none, st, rfl, hs, ?_, ?_⟩
    · intro _
      exact ⟨by simp, by simp [traceOf]⟩
    · intro err h
      cases h
  | cons e rest ih =>
    cases herr : e.err with
    | some err0 =>
      refine ⟨some err0, State.mk st.schema (st.trace ++ [Event.visit e.path]),
        by simp [Walk, walkFn_err load e st err0 herr], hs, ?_, ?_⟩
      · intro h
        cases h
      · intro err h
        cases h
        exact ⟨[], e, rest, rfl, by simp, Or.inl ⟨herr, by simp [traceOf]⟩⟩
    | none =>
      by_cases hq : qualifies e = true
      · cases hl : load e.path with
        | error err0 =>
          refine ⟨some err0,
            State.mk st.schema (st.trace ++ [Event.visit e.path, Event.load e.path]),
            by simp [Walk, walkFn_load_error load e st err0 herr hq hl], hs, ?_, ?_⟩
          · intro h
            cases h
          · intro err h
            cases h
            exact ⟨[], e, rest, rfl, by simp, Or.inr ⟨herr, hq, hl, by simp [traceOf]⟩⟩
        | ok fds =>
          obtain ⟨t, ht, hshape⟩ := Shape_processFiles fds.file st.schema hs
          have hstep := walkFn_load_ok load e st fds t herr hq hl ht
          have hpass : Passes load e := ⟨herr, fun _ => ⟨fds, hl⟩⟩
          obtain ⟨r, st1, h1, h2, h3, h4⟩ :=
            ih (State.mk t (st.trace ++ [Event.visit e.path, Event.load e.path])) hshape
          refine ⟨r, st1, by simp [Walk, hstep, h1], h2, ?_, ?_⟩
          · intro hr
            obtain ⟨h5, h6⟩ := h3 hr
            refine ⟨?_, ?_⟩
            · intro x hx
              rcases List.mem_cons.mp hx with hx | hx
              · exact hx ▸ hpass
              · exact h5 x hx
            · rw [h6]
              simp [traceOf, hq]
          · intro err hr
            obtain ⟨pre, x, post, h5, h6, h7⟩ := h4 err hr
            refine ⟨e :: pre, x, post, by simp [h5], ?_, ?_⟩
            · intro y hy
              rcases List.mem_cons.mp hy with hy | hy
              · exact hy ▸ hpass
              · exact h6 y hy
            · rcases h7 with ⟨h8, h9⟩ | ⟨h8, h9, h10, h11⟩
              · exact Or.inl ⟨h8, by rw [h9]; simp [traceOf, hq]⟩
              · exact Or.inr ⟨h8, h9, h10, by rw [h11]; simp [traceOf, hq]⟩
      · have hq2 : qualifies e = false := by simpa using hq
        have hstep := walkFn_skip load e st herr hq2
        have hpass : Passes load e := ⟨herr, fun h => absurd h hq⟩
        obtain ⟨r, st1, h1, h2, h3, h4⟩ :=
          ih (State.mk st.schema (st.trace ++ [Event.visit e.path])) hs
        refine ⟨r, st1, by simp [Walk, hstep, h1], h2, ?_, ?_⟩
        · intro hr
          obtain ⟨h5, h6⟩ := h3 hr
          refine ⟨?_, ?_⟩
          · intro x hx
            rcases List.mem_cons.mp hx with hx | hx
            · exact hx ▸ hpass
            · exact h5 x hx
          · rw [h6]
            simp [traceOf, hq]
        · intro err hr
          obtain ⟨pre, x, post, h5, h6, h7⟩ := h4 err hr
          refine ⟨e :: pre, x, post, by simp [h5], ?_, ?_⟩
          · intro y hy
            rcases List.mem_cons.mp hy with hy | hy
            · exact hy ▸ hpass
            · exact h6 y hy
          · rcases h7 with ⟨h8, h9⟩ | ⟨h8, h9, h10, h11⟩
            · exact Or.inl ⟨h8, by rw [h9]; simp [traceOf, hq]⟩
            · exact Or.inr ⟨h8, h9, h10, by rw [h11]; simp [traceOf, hq]⟩


theorem load_of_mem_traceOf (load : String → Except Error FileDescriptorSet)
    (es : List WalkEntry) (p : String) (err : Error) (hpass : ∀ x ∈ es, Passes load x)
    (hmem : Event.load p ∈ traceOf es) (hfail : load p = Except.error err) : False := by
  obtain ⟨e, he, hp, hq⟩ := mem_traceOf_load es p hmem
  obtain ⟨fds, hok⟩ := (hpass e he).2 hq
  rw [hp, hfail] at hok
  cases hok

theorem split_before_first_failure (P : WalkEntry → Prop) (pre2 : List WalkEntry) :
    ∀ (pre post post2 : List WalkEntry) (e e2 : WalkEntry),
      pre ++ e :: post = pre2 ++ e2 :: post2 → (∀ x ∈ pre2, P x) → ¬ P e →
      ∃ rest, pre ++ [e] = pre2 ++ [e2] ++ rest := by
  induction pre2 with
  | nil =>
    intro pre post post2 e e2 h _ _
    cases pre with
    | nil =>
      simp only [List.nil_append, List.cons.injEq] at h
      exact ⟨[], by simp [h.1]⟩
    | cons x more =>
      simp only [List.cons_append, List.nil_append, List.cons.injEq] at h
      exact ⟨more ++ [e], by simp [h.1]⟩
  | cons y ys ih =>
    intro pre post post2 e e2 h hP he
    cases pre with
    | nil =>
      simp only [List.nil_append, List.cons_append, List.cons.injEq] at h
      exact absurd (h.1 ▸ hP y (List.mem_cons_self _ _)) he
    | cons x more =>
      simp only [List.cons_append, List.cons.injEq] at h
      obtain ⟨rest, hrest⟩ :=
        ih more post post2 e e2 h.2 (fun z hz => hP z (List.mem_cons_of_mem _ hz)) he
      exact ⟨rest, by simp only [List.cons_append, h.1, hrest]⟩

/-- How `main` ends, read off the result of the walk: the walk error is fatal and leaves
the state of the walk; otherwise the trace of the walk is extended by at most the write. -/
theorem main_of_Walk (load : String → Except Error FileDescriptorSet)
    (MarshalIndent : JMap → Except Error String) (WriteFile : String → Option Error)
    (entries : List WalkEntry) (r : Option Error) (st1 : State)
    (hw : Walk (walkFn load) entries (State.mk initialSchema []) = some (r, st1)) :
    ∃ ex st, main load MarshalIndent WriteFile entries = some (ex, st) ∧
      st.schema = st1.schema ∧
      (∀ err, r = some err →
        ex = Exit.fatal ("Failed to walk through directory: " ++ err) ∧ st.trace = st1.trace) ∧
      (r = none →
        (st.trace = st1.trace ∧ ∃ err, MarshalIndent st1.schema = Except.error err) ∨
        ∃ js, MarshalIndent st1.schema = Except.ok js ∧
          st.trace = st1.trace ++ [Event.writeFile js]) := by
  cases r with
  | some err =>
    refine ⟨Exit.fatal ("Failed to walk through directory: " ++ err), st1,
      by simp [main, hw], rfl, ?_, ?_⟩
    · intro err1 h
      cases h
      exact ⟨rfl, rfl⟩
    · intro h
      cases h
  | none =>
    cases hm : MarshalIndent st1.schema with
    | error err =>
      refine ⟨Exit.fatal ("Failed to marshal schema to JSON: " ++ err), st1,
        by simp [main, hw, hm], rfl, ?_, ?_⟩
      · intro err1 h
        cases h
      · intro _
        exact Or.inl ⟨rfl, err, rfl⟩
    | ok js =>
      cases hwf : WriteFile js with
      | some err =>
        refine ⟨Exit.fatal ("Failed to write JSON schema file: " ++ err),
          State.mk st1.schema (st1.trace ++ [Event.writeFile js]),
          by simp [main, hw, hm, hwf], rfl, ?_, ?_⟩
        · intro err1 h
          cases h
        · intro _
          exact Or.inr ⟨js, rfl, rfl⟩
      | none =>
        refine ⟨Exit.success, State.mk st1.schema (st1.trace ++ [Event.writeFile js]),
          by simp [main, hw, hm, hwf], rfl, ?_, ?_⟩
        · intro err1 h
          cases h
        · intro _
          exact Or.inr ⟨js, rfl, rfl⟩

/-! ## Abort on the first error -/

/-- C9: `main` always ends (no panic), and it aborts on the first error. If in the run
the descriptor set of a file is loaded and the load fails, the process ends fatally with
that error, `WriteFile` is never called, the file is a qualifying entry before which
every entry passed, it is the last entry the walk function is entered for and its load is
the last step of the run. Whenever the entries hold a qualifying file whose load fails,
the process ends fatally in the walk, `WriteFile` is never called and no entry after that
file is visited. `WriteFile` is called only when the walk reported no error for any entry
and every qualifying file loaded. -/
theorem main_aborts_on_first_load_error (load : String → Except Error FileDescriptorSet)
    (MarshalIndent : JMap → Except Error String) (WriteFile : String → Option Error)
    (entries : List WalkEntry) :
    ∃ ex st, main load MarshalIndent WriteFile entries = some (ex, st) ∧
      (∀ p err, Event.load p ∈ st.trace → load p = Except.error err →
        ex = Exit.fatal ("Failed to walk through directory: " ++ err) ∧
        (∀ d, Event.writeFile d ∉ st.trace) ∧
        st.trace.getLast? = some (Event.load p) ∧
        ∃ pre e post, entries = pre ++ e :: post ∧ e.path = p ∧ qualifies e = true ∧
          (∀ x ∈ pre, Passes load x) ∧
          visitedPaths st.trace = (pre ++ [e]).map WalkEntry.path) ∧
      (∀ pre e post err, entries = pre ++ e :: post → qualifies e = true →
        load e.path = Except.error err →
        (∃ msg, ex = Exit.fatal ("Failed to walk through directory: " ++ msg)) ∧
        (∀ d, Event.writeFile d ∉ st.trace) ∧
        (∃ rest, (pre ++ [e]).map WalkEntry.path = visitedPaths st.trace ++ rest) ∧
        ((∀ x ∈ pre, Passes load x) → e.err = none →
          ex = Exit.fatal ("Failed to walk through directory: " ++ err))) ∧
      ((∃ d, Event.writeFile d ∈ st.trace) → ∀ e ∈ entries, Passes load e) := by
  obtain ⟨r, st1, hw, -, hnone, hsome⟩ :=
    Walk_spec load entries (State.mk initialSchema []) Shape_initialSchema
  obtain ⟨ex, st, hmain, -, herr, hok⟩ :=
    main_of_Walk load MarshalIndent WriteFile entries r st1 hw
  refine ⟨ex, st, hmain, ?_, ?_, ?_⟩
  · intro p err hmem hfail
    cases r with
    | none =>
      exfalso
      obtain ⟨hpass, htr⟩ := hnone rfl
      simp only [List.nil_append] at htr
      rcases hok rfl with ⟨h1, -⟩ | ⟨js, -, h1⟩
      · rw [h1, htr] at hmem
        exact load_of_mem_traceOf load entries p err hpass hmem hfail
      · rw [h1, htr] at hmem
        rcases List.mem_append.mp hmem with h | h
        · exact load_of_mem_traceOf load entries p err hpass h hfail
        · simp at h
    | some err1 =>
      obtain ⟨hex, htr⟩ := herr err1 rfl
      obtain ⟨pre, e, post, hsplit, hpass, hcase⟩ := hsome err1 rfl
      rcases hcase with ⟨-, h1⟩ | ⟨-, hq, hl, h1⟩
      · exfalso
        simp only [List.nil_append] at h1
        rw [htr, h1] at hmem
        rcases List.mem_append.mp hmem with h | h
        · exact load_of_mem_traceOf load pre p err hpass h hfail
        · simp at h
      · simp only [List.nil_append] at h1
        rw [htr, h1] at hmem
        have hp : p = e.path := by
          rcases List.mem_append.mp hmem with h | h
          · exact (load_of_mem_traceOf load pre p err hpass h hfail).elim
          · simpa using h
        subst hp
        rw [hfail] at hl
        cases hl
        refine ⟨hex, ?_, ?_, pre, e, post, hsplit, rfl, hq, hpass, ?_⟩
        · intro d hd
          rw [htr, h1] at hd
          rcases List.mem_append.mp hd with h | h
          · exact not_mem_traceOf_writeFile pre d h
          · simp at h
        · rw [htr, h1]
          simp
        · rw [htr, h1, visitedPaths_append, visitedPaths_traceOf]
          simp [visitedPaths]
  · intro pre e post err hsplit hq hfail
    have hnot : ¬ Passes load e := by
      rintro ⟨-, h⟩
      obtain ⟨fds, hok⟩ := h hq
      rw [hfail] at hok
      cases hok
    cases r with
    | none =>
      exact absurd ((hnone rfl).1 e (by rw [hsplit]; simp)) hnot
    | some err1 =>
      obtain ⟨hex, htr⟩ := herr err1 rfl
      obtain ⟨pre2, e2, post2, hsplit2, hpass, hcase⟩ := hsome err1 rfl
      have hvis : visitedPaths st.trace = (pre2 ++ [e2]).map WalkEntry.path := by
        rcases hcase with ⟨-, h1⟩ | ⟨-, -, -, h1⟩
        · rw [htr, h1]
          simp [visitedPaths_append, visitedPaths_traceOf, visitedPaths]
        · rw [htr, h1]
          simp [visitedPaths_append, visitedPaths_traceOf, visitedPaths]
      have hnow : ∀ d, Event.writeFile d ∉ st.trace := by
        intro d hd
        rw [htr] at hd
        rcases hcase with ⟨-, h1⟩ | ⟨-, -, -, h1⟩
        · rw [h1] at hd
          simp [not_mem_traceOf_writeFile] at hd
        · rw [h1] at hd
          simp [not_mem_traceOf_writeFile] at hd
      obtain ⟨rest, hrest⟩ := split_before_first_failure (Passes load) pre2 pre post post2 e e2
        (hsplit ▸ hsplit2) hpass hnot
      refine ⟨⟨err1, hex⟩, hnow, ⟨rest.map WalkEntry.path, ?_⟩, ?_⟩
      · rw [hvis, hrest]
        simp
      · intro hprepass herr0
        obtain ⟨rest2, hrest2⟩ := split_before_first_failure (Passes load) pre pre2 post2 post
          e2 e (hsplit2 ▸ hsplit) hprepass (by
            rcases hcase with ⟨h1, -⟩ | ⟨-, h2, h3, -⟩
            · rintro ⟨h, -⟩
              rw [h1] at h
              cases h
            · rintro ⟨-, h⟩
              obtain ⟨fds, hok⟩ := h h2
              rw [h3] at hok
              cases hok)
        have hlen := congrArg List.length hrest
        have hlen2 := congrArg List.length hrest2
        simp only [List.length_append, List.length_cons, List.length_nil] at hlen hlen2
        have hr : rest = [] := List.eq_nil_of_length_eq_zero (by omega)
        rw [hr, List.append_nil] at hrest
        have hpe := List.append_inj hrest (by omega)
        have hee : e = e2 := by simpa using hpe.2
        subst hee
        rcases hcase with ⟨h1, -⟩ | ⟨-, -, h3, -⟩
        · rw [herr0] at h1
          cases h1
        · rw [hfail] at h3
          cases h3
          exact hex
  · rintro ⟨d, hd⟩
    cases r with
    | none => exact (hnone rfl).1
    | some err1 =>
      exfalso
      obtain ⟨-, htr⟩ := herr err1 rfl
      obtain ⟨pre, e, post, -, -, hcase⟩ := hsome err1 rfl
      rw [htr] at hd
      rcases hcase with ⟨-, h1⟩ | ⟨-, -, -, h1⟩
      · simp only [List.nil_append] at h1
        rw [h1] at hd
        rcases List.mem_append.mp hd with h | h
        · exact not_mem_traceOf_writeFile pre d h
        · simp at h
      · simp only [List.nil_append] at h1
        rw [h1] at hd
        rcases List.mem_append.mp hd with h | h
        · exact not_mem_traceOf_writeFile pre d h
        · simp at h


theorem main_aborts_on_first_load_error_witness :
    ∃ st, main sampleLoad sampleMarshal sampleWrite
        [⟨".", true, none⟩, ⟨"a.proto", false, none⟩, ⟨"bad.proto", false, none⟩,
          ⟨"c.proto", false, none⟩]
        = some (Exit.fatal
            "Failed to walk through directory: cannot parse invalid wire-format data", st) ∧
      (∀ d, Event.writeFile d ∉ st.trace) ∧
      visitedPaths st.trace = [".", "a.proto", "bad.proto"] ∧
      st.trace.getLast? = some (Event.load "bad.proto") := by
  obtain ⟨ex, st, hmain, hfail, -⟩ :=
    main_aborts_on_first_load_error sampleLoad sampleMarshal sampleWrite
      [⟨".", true, none⟩, ⟨"a.proto", false, none⟩, ⟨"bad.proto", false, none⟩,
        ⟨"c.proto", false, none⟩]
  have hrun : main sampleLoad sampleMarshal sampleWrite
      [⟨".", true, none⟩, ⟨"a.proto", false, none⟩, ⟨"bad.proto", false, none⟩,
        ⟨"c.proto", false, none⟩]
      = some (Exit.fatal
          "Failed to walk through directory: cannot parse invalid wire-format data",
        State.mk
          [("type", JVal.str "object"),
            ("properties", JVal.obj [("name", JVal.obj [("type", JVal.str "string")]),
              ("age", JVal.obj [("type", JVal.str "integer")]),
              ("active", JVal.obj [("type", JVal.str "boolean")])])]
          [Event.visit ".", Event.visit "a.proto", Event.load "a.proto",
            Event.visit "bad.proto", Event.load "bad.proto"]) := by
    decide
  rw [hrun] at hmain
  cases hmain
  obtain ⟨-, h2, h3, -⟩ :=
    hfail "bad.proto" "cannot parse invalid wire-format data" (by decide) rfl
  exact ⟨_, rfl, h2, by decide, h3⟩

/-! ## End to end -/

theorem Walk_skip (load : String → Except Error FileDescriptorSet) (pre rest : List WalkEntry)
    (st : State) (hpre : ∀ e ∈ pre, e.err = none ∧ qualifies e = false) :
    Walk (walkFn load) (pre ++ rest) st
      = Walk (walkFn load) rest (State.mk st.schema (st.trace ++ traceOf pre)) := by
  induction pre generalizing st with
  | nil => simp [traceOf]
  | cons e more ih =>
    obtain ⟨h1, h2⟩ := hpre e (List.mem_cons_self _ _)
    have hmore : ∀ x ∈ more, x.err = none ∧ qualifies x = false :=
      fun x hx => hpre x (List.mem_cons_of_mem _ hx)
    have hstep : Walk (walkFn load) (e :: (more ++ rest)) st
        = Walk (walkFn load) (more ++ rest)
            (State.mk st.schema (st.trace ++ [Event.visit e.path])) := by
      simp [Walk, walkFn_skip load e st h1 h2]
    rw [List.cons_append, hstep, ih _ hmore]
    simp [traceOf, h2]

theorem mapIndex_Range_some (fs : List FieldDescriptor) (p : JMap) (k : String) (v : JVal)
    (h : mapIndex (Range storeField fs p) k = some v) :
    mapIndex p k = some v ∨ ∃ fd ∈ fs, fd.name = k ∧ v = JVal.obj (fieldSchema fd) := by
  induction fs generalizing p with
  | nil => exact Or.inl h
  | cons fd rest ih =>
    rw [Range_storeField_cons] at h
    rcases ih _ h with h1 | ⟨g, hg, h2⟩
    · by_cases hk : k = fd.name
      · rw [hk, mapIndex_mapAssign_self] at h1
        cases h1
        exact Or.inr ⟨fd, List.mem_cons_self _ _, hk.symm, rfl⟩
      · rw [mapIndex_mapAssign_ne _ _ _ _ hk] at h1
        exact Or.inl h1
    · exact Or.inr ⟨g, List.mem_cons_of_mem _ hg, h2⟩

/-- C8: end to end from the empty initial schema. When the walk meets one qualifying file
(the other entries do not qualify and carry no error) whose descriptor set holds a single
message with plain fields only, `main` ends with the schema
`{type: "object", properties: P}`; the keys of `P` are exactly the field names, every
entry of `P` is `{type: mapProtoTypeToJSONType(kind)}` for a field of that name, with
unique names `P` is the list of these entries, and the text handed to `WriteFile` is the
encoding of this schema. -/
theorem end_to_end_plain_message (load : String → Except Error FileDescriptorSet)
    (MarshalIndent : JMap → Except Error String) (WriteFile : String → Option Error)
    (pre post : List WalkEntry) (file : WalkEntry) (md : MessageDescriptor)
    (hpre : ∀ e ∈ pre, e.err = none ∧ qualifies e = false)
    (hpost : ∀ e ∈ post, e.err = none ∧ qualifies e = false)
    (hfile : file.err = none ∧ qualifies file = true)
    (hload : load file.path = Except.ok ⟨[⟨[md]⟩]⟩)
    (hplain : ∀ fd ∈ md.fields, fd.isList = false ∧ fd.isMap = false) :
    ∃ ex st P, main load MarshalIndent WriteFile (pre ++ file :: post) = some (ex, st) ∧
      st.schema = [("type", JVal.str "object"), ("properties", JVal.obj P)] ∧
      (∀ k, k ∈ mapKeys P ↔ k ∈ fieldNames md) ∧
      (∀ k v, mapIndex P k = some v → ∃ fd ∈ md.fields, fd.name = k ∧
        v = JVal.obj [("type", JVal.str (mapProtoTypeToJSONType fd.kind))]) ∧
      ((fieldNames md).Nodup →
        P = md.fields.map (fun fd =>
          (fd.name, JVal.obj [("type", JVal.str (mapProtoTypeToJSONType fd.kind))]))) ∧
      (∀ js, MarshalIndent st.schema = Except.ok js → Event.writeFile js ∈ st.trace) := by
  obtain ⟨herr, hq⟩ := hfile
  have hfiles : processFiles [⟨[md]⟩] initialSchema
      = some [("type", JVal.str "object"),
          ("properties", JVal.obj (Range storeField md.fields []))] := by
    simp [processFiles, processMessages, initialSchema, processMessageForSchema, mapIndex,
      mapAssign]
  have hwalk : Walk (walkFn load) (pre ++ file :: post) (State.mk initialSchema [])
      = some (none, State.mk
          [("type", JVal.str "object"), ("properties", JVal.obj (Range storeField md.fields []))]
          (([] ++ traceOf pre ++ [Event.visit file.path, Event.load file.path])
            ++ traceOf post)) := by
    have hstep := walkFn_load_ok load file (State.mk initialSchema ([] ++ traceOf pre))
      ⟨[⟨[md]⟩]⟩ _ herr hq hload hfiles
    have hpost2 := Walk_skip load post [] (State.mk
      [("type", JVal.str "object"), ("properties", JVal.obj (Range storeField md.fields []))]
      ([] ++ traceOf pre ++ [Event.visit file.path, Event.load file.path])) hpost
    rw [List.append_nil] at hpost2
    rw [Walk_skip load pre (file :: post) _ hpre]
    simp only [Walk, hstep]
    rw [hpost2]
    rfl
  obtain ⟨ex, st, hmain, hschema, -, hok⟩ :=
    main_of_Walk load MarshalIndent WriteFile (pre ++ file :: post) none _ hwalk
  refine ⟨ex, st, Range storeField md.fields [], hmain, hschema, ?_, ?_, ?_, ?_⟩
  · intro k
    rw [mem_mapKeys_Range]
    simp [mapKeys, fieldNames]
  · intro k v hv
    rcases mapIndex_Range_some md.fields [] k v hv with h | ⟨fd, hfd, hname, hval⟩
    · simp [mapIndex] at h
    · refine ⟨fd, hfd, hname, ?_⟩
      rw [hval, fieldSchema_plain fd (hplain fd hfd).1 (hplain fd hfd).2]
  · intro huniq
    rw [Range_storeField_fresh md.fields [] huniq (by simp [mapKeys]), List.nil_append]
    apply List.map_congr_left
    intro fd hfd
    rw [fieldSchema_plain fd (hplain fd hfd).1 (hplain fd hfd).2]
  · intro js hjs
    rw [hschema] at hjs
    rcases hok rfl with ⟨-, err, h⟩ | ⟨js1, h, htr⟩
    · rw [h] at hjs
      cases hjs
    · rw [h] at hjs
      cases hjs
      rw [htr]
      simp

theorem end_to_end_plain_message_witness :
    ∃ st, main sampleLoad sampleMarshal sampleWrite
        [⟨".", true, none⟩, ⟨"README.md", false, none⟩, ⟨"person.proto", false, none⟩,
          ⟨"protos", true, none⟩]
        = some (Exit.success, st) ∧
      st.schema = [("type", JVal.str "object"),
        ("properties", JVal.obj [("name", JVal.obj [("type", JVal.str "string")]),
          ("age", JVal.obj [("type", JVal.str "integer")]),
          ("active", JVal.obj [("type", JVal.str "boolean")])])] ∧
      Event.writeFile "<json>" ∈ st.trace := by
  obtain ⟨ex, st, P, hmain, hschema, -, -, hP, hwrite⟩ :=
    end_to_end_plain_message sampleLoad sampleMarshal sampleWrite
      [⟨".", true, none⟩, ⟨"README.md", false, none⟩] [⟨"protos", true, none⟩]
      ⟨"person.proto", false, none⟩ personMessage (by decide) (by decide) (by decide) rfl
      (by decide)
  have hex : ex = Exit.success := by
    have hrun : (main sampleLoad sampleMarshal sampleWrite
        ([⟨".", true, none⟩, ⟨"README.md", false, none⟩]
          ++ ⟨"person.proto", false, none⟩ :: [⟨"protos", true, none⟩])).map Prod.fst
        = some Exit.success := by decide
    rw [hmain] at hrun
    simpa using hrun
  subst hex
  refine ⟨st, hmain, ?_, hwrite "<json>" rfl⟩
  rw [hschema, hP (by decide)]
  rfl

end Jsonschema
